import Mathlib

/-!
# Verification of the customer-dedupe matching and clustering core

A shallow embedding of `customer_dedupe` (schema extraction, the
Levenshtein-based deterministic matcher, the functional cleaner, the
brute-force vector index and the union-find clustering stage), together
with proofs of the specification claims about them.

Python strings are modelled as Lean `String`, Python `dict`s as
insertion-ordered association lists, Python floats as `ℚ`.
-/

namespace CustomerDedupe

/-! ## Python string helpers -/

/-- Whitespace recognised by Python `str.strip` (ASCII core). -/
def isPySpace (c : Char) : Bool :=
  c = ' ' || c = '\t' || c = '\n' || c = '\r' || c = Char.ofNat 11 || c = Char.ofNat 12

/-- Python `str.strip()`. -/
def pyStrip (s : String) : String :=
  ⟨(((s.data.dropWhile isPySpace).reverse.dropWhile isPySpace).reverse : List Char)⟩

/-- Python `str.lower()` (ASCII case folding). -/
def pyLower (s : String) : String :=
  ⟨s.data.map Char.toLower⟩

/-! ## Association lists with Python `dict` semantics

Keys are unique; an update keeps the key's position, inserting a missing
key appends it at the end (Python insertion order). -/

/-- `d.get(k)` on a Python dict. -/
def alookup {α β : Type} [DecidableEq α] : List (α × β) → α → Option β
  | [], _ => none
  | (k, v) :: rest, key => if k = key then some v else alookup rest key

/-- `d[k] = v` on a Python dict: update in place, or append a new entry. -/
def aset {α β : Type} [DecidableEq α] : List (α × β) → α → β → List (α × β)
  | [], key, v => [(key, v)]
  | (k, w) :: rest, key, v =>
    if k = key then (k, v) :: rest else (k, w) :: aset rest key v

/-- `d[k].append(x)` on a Python `defaultdict(list)`. -/
def dappend {α β : Type} [DecidableEq α] : List (α × List β) → α → β → List (α × List β)
  | [], key, x => [(key, [x])]
  | (k, l) :: rest, key, x =>
    if k = key then (k, l ++ [x]) :: rest else (k, l) :: dappend rest key x

/-! ## Data model (`models.py`) -/

/-- Column-name-to-value attribute mapping of a record. -/
abbrev Attributes := List (String × String)

/-- `CustomerRecord` from `models.py`. -/
structure CustomerRecord where
  record_id : String
  attributes : Attributes
deriving DecidableEq

/-- `MatchCandidate` from `models.py`; the float score is modelled as `ℚ`. -/
structure MatchCandidate where
  left_id : String
  right_id : String
  score : ℚ
  metadata : List (String × String) := []
deriving DecidableEq

/-- `Cluster` from `models.py`. -/
structure Cluster where
  cluster_id : String
  record_ids : List String
  confidence : ℚ
deriving DecidableEq

/-! ## Schema (`schema.py`) -/

/-- The `FieldTag` string enumeration. -/
inductive FieldTag
  | ADDRESS | COUNTRY | CUSTOMER_ID | DATE | DOB | EMAIL
  | GENDER | MARKETING | NAME | PHONE | POSTCODE
deriving DecidableEq

/-- The `.value` of a `FieldTag` member. -/
def FieldTag.value : FieldTag → String
  | .ADDRESS => "ADDRESS"
  | .COUNTRY => "COUNTRY"
  | .CUSTOMER_ID => "CUSTOMER_ID"
  | .DATE => "DATE"
  | .DOB => "DOB"
  | .EMAIL => "EMAIL"
  | .GENDER => "GENDER"
  | .MARKETING => "MARKETING"
  | .NAME => "NAME"
  | .PHONE => "PHONE"
  | .POSTCODE => "POSTCODE"

/-- `RecordSchema` from `schema.py`. -/
structure RecordSchema where
  tag_to_columns : List (FieldTag × List String)
deriving DecidableEq

/-- `RecordSchema.from_mapping`: freezes the given mapping, with no
validation of column names. -/
def RecordSchema.from_mapping (mapping : List (FieldTag × List String)) : RecordSchema :=
  { tag_to_columns := mapping }

/-- `RecordSchema.columns_for`. -/
def RecordSchema.columns_for (s : RecordSchema) (tag : FieldTag) : List String :=
  (alookup s.tag_to_columns tag).getD []

/-- `RecordSchema.values_for`: non-empty stripped values, in column order. -/
def RecordSchema.values_for (s : RecordSchema) (attributes : Attributes) (tag : FieldTag) :
    List String :=
  (s.columns_for tag).filterMap fun column =>
    match alookup attributes column with
    | none => none
    | some value =>
      let text := pyStrip value
      if text = "" then none else some text

/-- `RecordSchema.joined_value` (separator defaulted to a single space). -/
def RecordSchema.joined_value (s : RecordSchema) (attributes : Attributes) (tag : FieldTag)
    (sep : String := " ") : String :=
  pyStrip (String.intercalate sep (s.values_for attributes tag))

/-! ## Levenshtein distance (`steps/deterministic.py`) -/

/-- Substitution cost of the DP (`0 if c1 == c2 else 1`). -/
def subCost (a b : Char) : Nat := if a = b then 0 else 1

/-- Inner loop of `_levenshtein`: builds the tail of the current DP row.
`left` is the last value pushed onto the row (`curr[j-1]`), `prev` the
suffix of the previous row starting at `prev[j-1]`. -/
def rowAux (c1 : Char) : List Char → Nat → List Nat → List Nat
  | [], _, _ => []
  | c2 :: rest, left, p0 :: p1 :: ps =>
    min (left + 1) (min (p1 + 1) (p0 + subCost c1 c2)) ::
      rowAux c1 rest (min (left + 1) (min (p1 + 1) (p0 + subCost c1 c2))) (p1 :: ps)
  | _ :: _, _, _ => []

/-- Outer loop of `_levenshtein`: one row per character of the left string,
rows indexed from `1`. -/
def dpLoop (right : List Char) : List Char → Nat → List Nat → List Nat
  | [], _, prev => prev
  | c1 :: ls, i, prev => dpLoop right ls (i + 1) (i :: rowAux c1 right i prev)

/-- `_levenshtein` from `steps/deterministic.py`: early-exit cases, then the
two-row DP, returning `prev[-1]`. -/
def levenshteinPy (left right : String) : Nat :=
  if left = right then 0
  else if left = "" then right.length
  else if right = "" then left.length
  else (dpLoop right.data left.data 1 (List.range (right.length + 1))).getLastD 0

/-! ## `NameFuzzyMatcher` (`steps/deterministic.py`) -/

/-- Construction state of `NameFuzzyMatcher`, with the constructor's
default arguments. -/
structure NameFuzzyMatcher where
  schema : RecordSchema
  name_tag : FieldTag := FieldTag.NAME
  max_edits : Nat := 1
  score : ℚ := 7 / 10

/-- The lower-cased tag-joined name text a record contributes to matching. -/
def NameFuzzyMatcher.nameText (m : NameFuzzyMatcher) (r : CustomerRecord) : String :=
  pyLower (m.schema.joined_value r.attributes m.name_tag)

/-- The candidate `NameFuzzyMatcher.match` appends for a matching pair. -/
def NameFuzzyMatcher.mkCandidate (m : NameFuzzyMatcher) (left right : CustomerRecord) :
    MatchCandidate :=
  { left_id := left.record_id
    right_id := right.record_id
    score := m.score
    metadata := [("rule", "name_levenshtein"), ("tag", m.name_tag.value)] }

/-- Inner loop of `NameFuzzyMatcher.match` for one `left` record against the
records after it. -/
def NameFuzzyMatcher.matchOne (m : NameFuzzyMatcher) (left : CustomerRecord)
    (rest : List CustomerRecord) : List MatchCandidate :=
  let left_name := m.nameText left
  if left_name = "" then []
  else
    rest.filterMap fun right =>
      let right_name := m.nameText right
      if right_name = "" then none
      else if levenshteinPy left_name right_name ≤ m.max_edits then
        some (m.mkCandidate left right)
      else none

/-- `NameFuzzyMatcher.match`: the nested loop over pairs `i < j`. -/
def NameFuzzyMatcher.matchRecords (m : NameFuzzyMatcher) :
    List CustomerRecord → List MatchCandidate
  | [] => []
  | left :: rest => m.matchOne left rest ++ m.matchRecords rest

/-! ## `FunctionalCleaner` (`steps/cleanup.py`) -/

/-- Construction state of `FunctionalCleaner`. -/
structure FunctionalCleaner where
  transforms : List (String × (String → String)) := []
  tag_transforms : List (FieldTag × (String → String)) := []
  schema : Option RecordSchema := none

/-- Shared loop body of both transform passes of `FunctionalCleaner.clean`:
`if key in attrs: attrs[key] = f(attrs[key])`. -/
def lookupTransformStep (a : Attributes) (k : String) (f : String → String) : Attributes :=
  match alookup a k with
  | some v => aset a k (f v)
  | none => a

/-- The column-keyed transform loop of `FunctionalCleaner.clean`. -/
def applyColumnTransforms (ts : List (String × (String → String))) (attrs : Attributes) :
    Attributes :=
  ts.foldl (fun a ft => lookupTransformStep a ft.1 ft.2) attrs

/-- The per-tag inner loop of `FunctionalCleaner.clean`. -/
def applyTagTransform (s : RecordSchema) (tag : FieldTag) (t : String → String)
    (attrs : Attributes) : Attributes :=
  (s.columns_for tag).foldl (fun a column => lookupTransformStep a column t) attrs

/-- Body of `FunctionalCleaner.clean` for a single record. -/
def FunctionalCleaner.cleanOne (c : FunctionalCleaner) (record : CustomerRecord) :
    CustomerRecord :=
  let attrs := applyColumnTransforms c.transforms record.attributes
  let attrs :=
    match c.schema with
    | some s => c.tag_transforms.foldl (fun a tt => applyTagTransform s tt.1 tt.2 a) attrs
    | none => attrs
  { record_id := record.record_id, attributes := attrs }

/-- `FunctionalCleaner.clean`. -/
def FunctionalCleaner.clean (c : FunctionalCleaner) (records : List CustomerRecord) :
    List CustomerRecord :=
  records.map c.cleanOne

/-! ## `BruteForceVectorIndex` (`steps/embedding.py`) -/

/-- Dot product `_dot` (Python `zip` truncates to the shorter list). -/
def dotQ (left right : List ℚ) : ℚ :=
  ((left.zip right).map fun p => p.1 * p.2).sum

/-- State of `BruteForceVectorIndex` (initially empty). -/
structure BruteForceVectorIndex where
  record_ids : List String := []
  vectors : List (List ℚ) := []
deriving DecidableEq

/-- `BruteForceVectorIndex.build`: replaces the state with copies of the
two argument sequences, with no length check. -/
def BruteForceVectorIndex.build (_idx : BruteForceVectorIndex) (record_ids : List String)
    (vectors : List (List ℚ)) : BruteForceVectorIndex :=
  { record_ids := record_ids, vectors := vectors }

/-- `BruteForceVectorIndex.query_similar_pairs`: all pairs `i < j` in build
order whose dot product reaches the threshold. -/
def BruteForceVectorIndex.query_similar_pairs (idx : BruteForceVectorIndex)
    (min_similarity : ℚ) : List MatchCandidate :=
  (List.range idx.vectors.length).flatMap fun i =>
    (List.range' (i + 1) (idx.vectors.length - (i + 1))).filterMap fun j =>
      let score := dotQ (idx.vectors.getD i []) (idx.vectors.getD j [])
      if min_similarity ≤ score then
        some
          { left_id := idx.record_ids.getD i ""
            right_id := idx.record_ids.getD j ""
            score := score
            metadata := [("source", "embedding")] }
      else none

/-! ## `_UnionFind` (`steps/embedding.py`)

The parent dict is an insertion-ordered association list.  `find` is the
recursive path-compressing find; its recursion is fuel-bounded in the
embedding, with fuel `length + 1`, which suffices for every reachable
(forest-shaped) state. -/

/-- Parent map of `_UnionFind`. -/
abbrev UFParent := List (String × String)

/-- Fuel-bounded body of `_UnionFind.find`: lazily inserts missing items,
path-compresses, and returns the root together with the updated state. -/
def findAux : Nat → UFParent → String → String × UFParent
  | 0, p, item => (item, p)
  | fuel + 1, p, item =>
    match alookup p item with
    | none => (item, aset p item item)
    | some par =>
      if par = item then (item, p)
      else
        let rp := findAux fuel p par
        (rp.1, aset rp.2 item rp.1)

/-- `_UnionFind.find`. -/
def UF.find (p : UFParent) (item : String) : String × UFParent :=
  findAux (p.length + 1) p item

/-- `_UnionFind.union`: attaches the right root under the left root. -/
def UF.union (p : UFParent) (left right : String) : UFParent :=
  let rl := UF.find p left
  let rr := UF.find rl.2 right
  if rl.1 ≠ rr.1 then aset rr.2 rr.1 rl.1 else rr.2

/-- Loop of `_UnionFind.groups` over the snapshot of the keys, threading
the (path-compressing) state. -/
def UF.groupsAux : List String → UFParent → List (String × List String) →
    UFParent × List (String × List String)
  | [], p, acc => (p, acc)
  | k :: ks, p, acc =>
    let rp := UF.find p k
    UF.groupsAux ks rp.2 (dappend acc rp.1 k)

/-- `_UnionFind.groups`. -/
def UF.groups (p : UFParent) : UFParent × List (String × List String) :=
  UF.groupsAux (p.map Prod.fst) p []

/-! ## `DefaultEmbeddingMatcher.cluster` (`steps/embedding.py`) -/

/-- The union loop of `cluster`: one union per candidate, from the empty
parent map. -/
def unionAll (candidates : List MatchCandidate) : UFParent :=
  candidates.foldl (fun p c => UF.union p c.left_id c.right_id) []

/-- The scoring loop of `cluster`: appends each candidate's score under the
root found for its left endpoint, threading the union-find state. -/
def scoreLoop (candidates : List MatchCandidate) (p : UFParent) :
    UFParent × List (String × List ℚ) :=
  candidates.foldl
    (fun st c =>
      let rp := UF.find st.1 c.left_id
      (rp.2, dappend st.2 rp.1 c.score))
    (p, [])

/-- String sort used for Python `sorted` on record ids. -/
def sortStr (l : List String) : List String :=
  l.mergeSort fun a b => decide (a ≤ b)

/-- Python `sorted(clusters, key=cluster_id)`. -/
def sortClusters (l : List Cluster) : List Cluster :=
  l.mergeSort fun a b => decide (a.cluster_id ≤ b.cluster_id)

/-- The `scores` list looked up (with default `[0.0]`) for a root in the
score map built by the scoring loop. -/
def scoresFor (sm : List (String × List ℚ)) (root : String) : List ℚ :=
  (alookup sm root).getD [(0 : ℚ)]

/-- The cluster built for one `(root, members)` group of size `≥ 2`. -/
def groupToCluster (sm : List (String × List ℚ)) (rm : String × List String) :
    Option Cluster :=
  if rm.2.length < 2 then none
  else
    some
      { cluster_id := "cluster_" ++ rm.1
        record_ids := sortStr rm.2
        confidence := (scoresFor sm rm.1).sum / ((scoresFor sm rm.1).length : ℚ) }

/-- `DefaultEmbeddingMatcher.cluster` before the final sort. -/
def clustersOf (candidates : List MatchCandidate) : List Cluster :=
  (UF.groups (scoreLoop candidates (unionAll candidates)).1).2.filterMap
    (groupToCluster (scoreLoop candidates (unionAll candidates)).2)

/-- `DefaultEmbeddingMatcher.cluster`. -/
def cluster (candidates : List MatchCandidate) : List Cluster :=
  if candidates = [] then [] else sortClusters (clustersOf candidates)

/-! ## Spec-side reference definitions

These definitions transcribe the specification's wording (not the code) and
are compared with the embedded code in the refinement theorems below. -/

/-- Placeholder record used as the `getD` default when indexing record lists. -/
def dfltRec : CustomerRecord := { record_id := "", attributes := [] }

/-- Spec-side enumeration of the unordered pairs of distinct list elements,
`i < j` in input order. -/
def orderedPairs {α : Type} : List α → List (α × α)
  | [] => []
  | x :: xs => (xs.map fun y => (x, y)) ++ orderedPairs xs

/-- Spec-side description of the deterministic matcher (claim C1): one
candidate for each pair `i < j` whose lower-cased tag-joined name is
non-empty on both sides and within the edit budget, carrying the configured
score. -/
def NameFuzzyMatcher.matchSpec (m : NameFuzzyMatcher) (records : List CustomerRecord) :
    List MatchCandidate :=
  (orderedPairs records).filterMap fun lr =>
    if m.nameText lr.1 ≠ "" ∧ m.nameText lr.2 ≠ "" ∧
        levenshteinPy (m.nameText lr.1) (m.nameText lr.2) ≤ m.max_edits then
      some (m.mkCandidate lr.1 lr.2)
    else none

/-- Reference recursive Levenshtein distance (unit-cost insert, delete,
substitute), used to specify the DP of `_levenshtein`. -/
def lev (a b : List Char) : Nat :=
  match a, b with
  | [], ys => ys.length
  | _ :: xs, [] => xs.length + 1
  | x :: xs, y :: ys =>
    min (lev xs (y :: ys) + 1) (min (lev (x :: xs) ys + 1) (lev xs ys + subCost x y))
termination_by a.length + b.length
decreasing_by all_goals (simp [List.length_cons]; try omega)

/-- The reference value of one DP row: distances from `P` to the reversed
extensions of `Q` by successive elements of the remaining right text. -/
def prefVals (P : List Char) : List Char → List Char → List Nat
  | Q, [] => [lev P Q]
  | Q, c2 :: rest => lev P Q :: prefVals P (c2 :: Q) rest

/-! ## Union-find: semantic specification -/

/-- The parent chain from `x` ends at root `r`; items outside the map are
their own roots. -/
inductive Reaches (p : UFParent) : String → String → Prop
  | self (x : String) (h : alookup p x = some x) : Reaches p x x
  | outside (x : String) (h : alookup p x = none) : Reaches p x x
  | step (x y r : String) (h : alookup p x = some y) (hne : y ≠ x)
      (hr : Reaches p y r) : Reaches p x r

/-- `Reaches` with an explicit chain length. -/
inductive ReachesN (p : UFParent) : Nat → String → String → Prop
  | self (x : String) (h : alookup p x = some x) : ReachesN p 0 x x
  | outside (x : String) (h : alookup p x = none) : ReachesN p 0 x x
  | step (n : Nat) (x y r : String) (h : alookup p x = some y) (hne : y ≠ x)
      (hr : ReachesN p n y r) : ReachesN p (n + 1) x r

/-- Acyclicity certificate: proper parent links strictly decrease a height. -/
def HeightCond (p : UFParent) (h : String → Nat) : Prop :=
  ∀ kv ∈ p, kv.2 ≠ kv.1 → h kv.2 < h kv.1

/-- Every parent value is itself a key. -/
def ClosedVals (p : UFParent) : Prop :=
  ∀ kv ∈ p, kv.2 ∈ p.map Prod.fst

/-- Well-formed (reachable) union-find state: unique keys, closed parent
values, and an acyclicity certificate. -/
def UFWF (p : UFParent) : Prop :=
  (p.map Prod.fst).Nodup ∧ ClosedVals p ∧ ∃ h : String → Nat, HeightCond p h

/-- Two items lie in the same union-find component. -/
def SameRoot (p : UFParent) (x y : String) : Prop :=
  ∃ r, Reaches p x r ∧ Reaches p y r

/-- The edge relation of a candidate list (edges oriented left-to-right). -/
def edgeRel (cs : List MatchCandidate) (a b : String) : Prop :=
  ∃ c ∈ cs, c.left_id = a ∧ c.right_id = b

/-- A record id mentioned by some candidate. -/
def mentioned (cs : List MatchCandidate) (x : String) : Prop :=
  ∃ c ∈ cs, c.left_id = x ∨ c.right_id = x

/-- The code's own canonical root of `x` in state `p`. -/
def rootIn (p : UFParent) (x : String) : String :=
  (UF.find p x).1

/-- List stored for a key in a `defaultdict(list)`, empty when absent. -/
def glist {β : Type} (m : List (String × List β)) (k : String) : List β :=
  (alookup m k).getD []

/-- Concrete fixture candidate used by witnesses. -/
def wCand : MatchCandidate :=
  { left_id := "b", right_id := "a", score := 1, metadata := [] }

/-- Concrete fixture cluster used by witnesses. -/
def wCluster : Cluster :=
  { cluster_id := "cluster_b", record_ids := ["a", "b"], confidence := 1 }

/-- Second concrete fixture candidate used by witnesses. -/
def wCand2 : MatchCandidate :=
  { left_id := "c", right_id := "d", score := 1 / 2, metadata := [] }

/-! ## Basic lemmas on the dict embedding -/

theorem alookup_isSome_iff {α β : Type} [DecidableEq α] (l : List (α × β)) (k : α) :
    (alookup l k).isSome ↔ k ∈ l.map Prod.fst := by
  induction l with
  | nil => simp [alookup]
  | cons kv rest ih =>
    obtain ⟨k0, v0⟩ := kv
    by_cases h : k0 = k <;> simp [alookup, h, ih]
    exact fun hk => (h hk.symm).elim

theorem aset_map_fst_of_lookup {α β : Type} [DecidableEq α] (l : List (α × β)) (k : α)
    (v w : β) (h : alookup l k = some v) :
    (aset l k w).map Prod.fst = l.map Prod.fst := by
  induction l with
  | nil => simp [alookup] at h
  | cons kv rest ih =>
    obtain ⟨k0, v0⟩ := kv
    by_cases hk : k0 = k
    · simp [aset, hk]
    · simp [alookup, hk] at h
      simp [aset, hk, ih h]

/-! ## Claim theorem: deterministic matcher (C1) -/

theorem filterMap_ext {α β : Type} (f g : α → Option β) :
    ∀ l : List α, (∀ a ∈ l, f a = g a) → l.filterMap f = l.filterMap g := by
  intro l h
  induction l with
  | nil => rfl
  | cons x xs ih =>
    rw [List.filterMap_cons, List.filterMap_cons, h x (by simp),
      ih fun a ha => h a (List.mem_cons_of_mem x ha)]

theorem matchOne_eq_filterMap (m : NameFuzzyMatcher) (x : CustomerRecord)
    (xs : List CustomerRecord) :
    m.matchOne x xs = (xs.map fun y => (x, y)).filterMap fun lr =>
      if m.nameText lr.1 ≠ "" ∧ m.nameText lr.2 ≠ "" ∧
          levenshteinPy (m.nameText lr.1) (m.nameText lr.2) ≤ m.max_edits then
        some (m.mkCandidate lr.1 lr.2)
      else none := by
  rw [List.filterMap_map]
  unfold NameFuzzyMatcher.matchOne
  by_cases hx : m.nameText x = ""
  · rw [if_pos hx]
    refine (List.filterMap_eq_nil_iff.mpr fun y _ => ?_).symm
    simp only [Function.comp]
    rw [if_neg]
    simp [hx]
  · rw [if_neg hx]
    refine filterMap_ext _ _ xs fun y _ => ?_
    simp only [Function.comp]
    by_cases hy : m.nameText y = ""
    · rw [if_pos hy, if_neg]
      simp [hy]
    · by_cases hlev : levenshteinPy (m.nameText x) (m.nameText y) ≤ m.max_edits
      · rw [if_neg hy, if_pos hlev, if_pos ⟨hx, hy, hlev⟩]
      · rw [if_neg hy, if_neg hlev, if_neg]
        simp [hlev]

/-- Claim C1: `match` returns exactly one candidate for each pair `i < j`
(in input order) whose lower-cased tag-joined name field is non-empty on
both sides and within `max_edits` Levenshtein distance, each candidate
carrying the configured fixed score; pairs with an empty joined value on
either side are never emitted.  The constructor defaults are `max_edits = 1`
and `score = 0.7`. -/
theorem nameFuzzyMatcher_match_spec (m : NameFuzzyMatcher) (records : List CustomerRecord) :
    m.matchRecords records = m.matchSpec records ∧
      (∀ c ∈ m.matchRecords records, c.score = m.score) ∧
      (∀ s : RecordSchema, ({ schema := s } : NameFuzzyMatcher).max_edits = 1 ∧
        ({ schema := s } : NameFuzzyMatcher).score = 7 / 10) := by
  have hmain : ∀ rs : List CustomerRecord, m.matchRecords rs = m.matchSpec rs := by
    intro rs
    induction rs with
    | nil => rfl
    | cons x xs ih =>
      show m.matchOne x xs ++ m.matchRecords xs = _
      rw [NameFuzzyMatcher.matchSpec]
      show _ = ((xs.map fun y => (x, y)) ++ orderedPairs xs).filterMap _
      rw [List.filterMap_append, ih, matchOne_eq_filterMap]
      rfl
  refine ⟨hmain records, ?_, fun s => ⟨rfl, rfl⟩⟩
  intro c hc
  rw [hmain records] at hc
  simp only [NameFuzzyMatcher.matchSpec, List.mem_filterMap] at hc
  obtain ⟨lr, _, h⟩ := hc
  split at h
  · cases h
    rfl
  · cases h

/-- The generic step of both transform loops in `clean` keeps the key list. -/
theorem transform_step_map_fst (a : Attributes) (k : String) (f : String → String) :
    (lookupTransformStep a k f).map Prod.fst = a.map Prod.fst := by
  unfold lookupTransformStep
  cases h : alookup a k with
  | none => rfl
  | some v => exact aset_map_fst_of_lookup a k v (f v) h

/-- A fold whose every step keeps the attribute key list keeps it overall. -/
theorem foldl_preserves_map_fst {κ : Type} (step : Attributes → κ → Attributes)
    (hstep : ∀ a x, (step a x).map Prod.fst = a.map Prod.fst) :
    ∀ (l : List κ) (a : Attributes), (l.foldl step a).map Prod.fst = a.map Prod.fst := by
  intro l
  induction l with
  | nil => intro a; rfl
  | cons x xs ih => intro a; rw [List.foldl_cons, ih, hstep]

theorem applyColumnTransforms_map_fst (ts : List (String × (String → String)))
    (a : Attributes) : (applyColumnTransforms ts a).map Prod.fst = a.map Prod.fst := by
  unfold applyColumnTransforms
  exact foldl_preserves_map_fst _ (fun a ft => transform_step_map_fst a ft.1 ft.2) ts a

theorem applyTagTransform_map_fst (s : RecordSchema) (tag : FieldTag) (t : String → String)
    (a : Attributes) : (applyTagTransform s tag t a).map Prod.fst = a.map Prod.fst := by
  unfold applyTagTransform
  exact foldl_preserves_map_fst _ (fun a column => transform_step_map_fst a column t) _ a

theorem cleanOne_map_fst (c : FunctionalCleaner) (r : CustomerRecord) :
    (c.cleanOne r).attributes.map Prod.fst = r.attributes.map Prod.fst := by
  unfold FunctionalCleaner.cleanOne
  cases c.schema with
  | none => exact applyColumnTransforms_map_fst _ _
  | some s =>
    exact (foldl_preserves_map_fst _ (fun a tt => applyTagTransform_map_fst s tt.1 tt.2 a)
      c.tag_transforms _).trans (applyColumnTransforms_map_fst _ _)

theorem getD_map_of_lt {α β : Type} (f : α → β) (d1 : β) (d2 : α) :
    ∀ (l : List α) (i : Nat), i < l.length → (l.map f).getD i d1 = f (l.getD i d2)
  | _ :: _, 0, _ => rfl
  | _ :: xs, i + 1, h =>
    getD_map_of_lt f d1 d2 xs i (Nat.lt_of_succ_lt_succ h)

/-! ## Claim theorems: schema and index construction (C3, C4) -/

/-- Claim C3, counterexample: constructing a `RecordSchema` from a mapping
containing the empty column name succeeds and returns a schema holding that
mapping — it does not fail with a configuration error. -/
theorem from_mapping_accepts_empty_column :
    RecordSchema.from_mapping [(FieldTag.NAME, [""])]
      = { tag_to_columns := [(FieldTag.NAME, [""])] } := rfl

/-- Claim C3 (amended): `RecordSchema.from_mapping` performs no validation at
all; it freezes and stores any mapping unchanged, including mappings with
empty column names. -/
theorem from_mapping_no_validation (m : List (FieldTag × List String)) :
    (RecordSchema.from_mapping m).tag_to_columns = m := rfl

/-- Claim C4, counterexample: `build` called with one record id and zero
vectors succeeds and installs the mismatched state — it does not fail with
an input-mismatch error. -/
theorem build_accepts_mismatched_lengths :
    BruteForceVectorIndex.build {} ["a"] []
      = { record_ids := ["a"], vectors := [] } := rfl

/-- Claim C4 (amended): `build` performs no length check; it replaces the
index state with the two argument lists unchanged, whatever their lengths
(so it neither fails, truncates, nor zero-fills). -/
theorem build_stores_inputs_unchanged (idx : BruteForceVectorIndex)
    (ids : List String) (vecs : List (List ℚ)) :
    (BruteForceVectorIndex.build idx ids vecs).record_ids = ids ∧
      (BruteForceVectorIndex.build idx ids vecs).vectors = vecs :=
  ⟨rfl, rfl⟩

/-! ## Claim theorems: cleaner (C9, C10) -/

/-- Claim C9: `clean` returns a list of the same length in the same order;
the `i`-th output record keeps the `i`-th input record's `record_id` and its
attribute mapping has exactly the same key list (hence key set). -/
theorem clean_preserves_shape (c : FunctionalCleaner) (records : List CustomerRecord)
    (i : Nat) (h : i < records.length) :
    (c.clean records).length = records.length ∧
      ((c.clean records).getD i dfltRec).record_id = (records.getD i dfltRec).record_id ∧
      ((c.clean records).getD i dfltRec).attributes.map Prod.fst
        = (records.getD i dfltRec).attributes.map Prod.fst := by
  refine ⟨by simp [FunctionalCleaner.clean], ?_, ?_⟩
  · rw [FunctionalCleaner.clean, getD_map_of_lt c.cleanOne dfltRec dfltRec records i h]
    rfl
  · rw [FunctionalCleaner.clean, getD_map_of_lt c.cleanOne dfltRec dfltRec records i h]
    exact cleanOne_map_fst c _

/-- Witness for claim C9 at a concrete cleaner, record list and index. -/
theorem clean_preserves_shape_witness :
    0 < ([{ record_id := "7", attributes := [("A", " x ")] }] : List CustomerRecord).length ∧
      (({ transforms := [("A", pyStrip)] } : FunctionalCleaner).clean
            [{ record_id := "7", attributes := [("A", " x ")] }]).length = 1 ∧
      ((({ transforms := [("A", pyStrip)] } : FunctionalCleaner).clean
            [{ record_id := "7", attributes := [("A", " x ")] }]).getD 0 dfltRec).record_id
        = (([{ record_id := "7", attributes := [("A", " x ")] }] :
            List CustomerRecord).getD 0 dfltRec).record_id ∧
      ((({ transforms := [("A", pyStrip)] } : FunctionalCleaner).clean
            [{ record_id := "7", attributes := [("A", " x ")] }]).getD 0
            dfltRec).attributes.map Prod.fst
        = (([{ record_id := "7", attributes := [("A", " x ")] }] :
            List CustomerRecord).getD 0 dfltRec).attributes.map Prod.fst :=
  ⟨by simp,
    clean_preserves_shape { transforms := [("A", pyStrip)] }
      [{ record_id := "7", attributes := [("A", " x ")] }] 0 (by simp)⟩

/-- Claim C10: a `FunctionalCleaner` with `schema = none` never applies any
tag-keyed transform: whatever `tag_transforms` holds, `clean` returns exactly
the records produced by the column-keyed transforms alone, and equals the
output of the same cleaner with `tag_transforms` emptied. -/
theorem clean_no_schema_ignores_tag_transforms (ts : List (String × (String → String)))
    (tg : List (FieldTag × (String → String))) (records : List CustomerRecord) :
    FunctionalCleaner.clean { transforms := ts, tag_transforms := tg, schema := none } records
        = records.map (fun r =>
            ({ record_id := r.record_id,
                attributes := applyColumnTransforms ts r.attributes } : CustomerRecord)) ∧
      FunctionalCleaner.clean { transforms := ts, tag_transforms := tg, schema := none } records
        = FunctionalCleaner.clean { transforms := ts, tag_transforms := [], schema := none }
            records :=
  ⟨rfl, rfl⟩

/-! ## Claim theorem: vector index monotonicity (C8) -/

/-- Claim C8: for thresholds `t1 < t2`, every pair returned by
`query_similar_pairs t2` is also returned by `query_similar_pairs t1`. -/
theorem query_similar_pairs_monotone (idx : BruteForceVectorIndex) (t1 t2 : ℚ)
    (h : t1 < t2) :
    ∀ c ∈ idx.query_similar_pairs t2, c ∈ idx.query_similar_pairs t1 := by
  intro c hc
  simp only [BruteForceVectorIndex.query_similar_pairs, List.mem_flatMap,
    List.mem_filterMap, List.mem_range, List.mem_range'] at hc ⊢
  obtain ⟨i, hi, j, hj, hcond⟩ := hc
  refine ⟨i, hi, j, hj, ?_⟩
  split at hcond
  case isTrue hscore =>
    rw [if_pos (le_trans (le_of_lt h) hscore)]
    exact hcond
  case isFalse => exact absurd hcond (by simp)

/-- Witness for claim C8 at a concrete two-vector index and thresholds. -/
theorem query_similar_pairs_monotone_witness :
    (0 : ℚ) < 1 ∧
      ({ left_id := "a", right_id := "b", score := 1,
          metadata := [("source", "embedding")] } : MatchCandidate)
        ∈ (BruteForceVectorIndex.build {} ["a", "b"] [[1], [1]]).query_similar_pairs 1 ∧
      ({ left_id := "a", right_id := "b", score := 1,
          metadata := [("source", "embedding")] } : MatchCandidate)
        ∈ (BruteForceVectorIndex.build {} ["a", "b"] [[1], [1]]).query_similar_pairs 0 :=
  have hmem :
      ({ left_id := "a", right_id := "b", score := 1,
          metadata := [("source", "embedding")] } : MatchCandidate)
        ∈ (BruteForceVectorIndex.build {} ["a", "b"] [[1], [1]]).query_similar_pairs 1 := by
    norm_num [BruteForceVectorIndex.query_similar_pairs, BruteForceVectorIndex.build, dotQ,
      List.range_succ, List.range']
  ⟨by norm_num, hmem,
    query_similar_pairs_monotone (BruteForceVectorIndex.build {} ["a", "b"] [[1], [1]]) 0 1
      (by norm_num) _ hmem⟩

/-! ## Levenshtein distance: reference recursion lemmas -/

theorem lev_nil_left (ys : List Char) : lev [] ys = ys.length := by
  rw [lev]

theorem lev_nil_right (xs : List Char) : lev xs [] = xs.length := by
  cases xs with
  | nil => rw [lev]
  | cons x xs => rw [lev]; rfl

theorem lev_cons_cons (x y : Char) (xs ys : List Char) :
    lev (x :: xs) (y :: ys)
      = min (lev xs (y :: ys) + 1) (min (lev (x :: xs) ys + 1) (lev xs ys + subCost x y)) := by
  rw [lev]

theorem subCost_self (x : Char) : subCost x x = 0 := by simp [subCost]

theorem subCost_comm (x y : Char) : subCost x y = subCost y x := by
  unfold subCost
  by_cases h : x = y
  · rw [if_pos h, if_pos h.symm]
  · rw [if_neg h, if_neg fun e => h e.symm]

theorem subCost_le_one (x y : Char) : subCost x y ≤ 1 := by
  unfold subCost
  split <;> omega

theorem subCost_triangle (x y z : Char) : subCost x z ≤ subCost x y + subCost y z := by
  unfold subCost
  split_ifs <;> simp_all

theorem lev_self : ∀ a : List Char, lev a a = 0
  | [] => by rw [lev_nil_left]; rfl
  | x :: xs => by
    have ih := lev_self xs
    rw [lev_cons_cons, subCost_self, ih]
    omega

theorem lev_comm : ∀ a b : List Char, lev a b = lev b a
  | [], ys => by rw [lev_nil_left, lev_nil_right]
  | _ :: _, [] => by rw [lev_nil_left, lev_nil_right]
  | x :: xs, y :: ys => by
    have h1 := lev_comm xs (y :: ys)
    have h2 := lev_comm (x :: xs) ys
    have h3 := lev_comm xs ys
    rw [lev_cons_cons, lev_cons_cons, h1, h2, h3, subCost_comm]
    omega
termination_by a b => a.length + b.length
decreasing_by all_goals (simp [List.length_cons]; try omega)

theorem lev_le_length_add : ∀ a b : List Char, lev a b ≤ a.length + b.length
  | [], b => by rw [lev_nil_left]; omega
  | _ :: _, [] => by rw [lev_nil_right]; omega
  | x :: xs, y :: ys => by
    have h3 := lev_le_length_add xs ys
    have hc := subCost_le_one x y
    rw [lev_cons_cons]
    simp only [List.length_cons]
    omega
termination_by a b => a.length + b.length
decreasing_by all_goals (simp [List.length_cons]; try omega)

theorem length_le_add_lev : ∀ b c : List Char, c.length ≤ b.length + lev b c
  | [], c => by rw [lev_nil_left]; omega
  | _ :: _, [] => by simp
  | y :: b, z :: c => by
    have h1 := length_le_add_lev b (z :: c)
    have h2 := length_le_add_lev (y :: b) c
    have h3 := length_le_add_lev b c
    rw [lev_cons_cons]
    simp only [List.length_cons] at h1 h2 h3 ⊢
    omega
termination_by b c => b.length + c.length
decreasing_by all_goals (simp [List.length_cons]; try omega)

theorem lev_triangle : ∀ a b c : List Char, lev a c ≤ lev a b + lev b c
  | a, [], c => by
    rw [lev_nil_right, lev_nil_left]
    exact lev_le_length_add a c
  | [], _ :: b0, c => by
    rw [lev_nil_left, lev_nil_left]
    exact length_le_add_lev _ c
  | x :: a0, y :: b0, [] => by
    rw [lev_nil_right, lev_nil_right]
    have h := length_le_add_lev (y :: b0) (x :: a0)
    have hc := lev_comm (y :: b0) (x :: a0)
    simp only [List.length_cons] at h ⊢
    omega
  | x :: a0, y :: b0, z :: c0 => by
    have T1 := lev_triangle (x :: a0) b0 (z :: c0)
    have T2 := lev_triangle a0 (y :: b0) (z :: c0)
    have T3 := lev_triangle (x :: a0) (y :: b0) c0
    have T4 := lev_triangle a0 b0 c0
    have T5 := lev_triangle (x :: a0) b0 c0
    have T6 := lev_triangle a0 b0 (z :: c0)
    have hab := lev_cons_cons x y a0 b0
    have hbc := lev_cons_cons y z b0 c0
    have hac := lev_cons_cons x z a0 c0
    have hct := subCost_triangle x y z
    omega
termination_by a b c => a.length + b.length + c.length
decreasing_by all_goals (simp [List.length_cons]; try omega)

/-! ## Levenshtein distance: the Python DP computes `lev` on reversals -/

theorem prefVals_head (P : List Char) :
    ∀ rs Q : List Char, ∃ t, prefVals P Q rs = lev P Q :: t
  | [], _ => ⟨[], rfl⟩
  | _ :: _, _ => ⟨_, rfl⟩

theorem rowAux_spec (c1 : Char) (P : List Char) :
    ∀ rs Q : List Char,
      rowAux c1 rs (lev (c1 :: P) Q) (prefVals P Q rs) = (prefVals (c1 :: P) Q rs).tail
  | [], Q => rfl
  | c2 :: rest, Q => by
    obtain ⟨t, ht⟩ := prefVals_head P rest (c2 :: Q)
    obtain ⟨t2, ht2⟩ := prefVals_head (c1 :: P) rest (c2 :: Q)
    have hv : min (lev (c1 :: P) Q + 1)
        (min (lev P (c2 :: Q) + 1) (lev P Q + subCost c1 c2)) = lev (c1 :: P) (c2 :: Q) := by
      rw [lev_cons_cons]
      omega
    have hpv : prefVals P Q (c2 :: rest) = lev P Q :: lev P (c2 :: Q) :: t := by
      rw [show prefVals P Q (c2 :: rest) = lev P Q :: prefVals P (c2 :: Q) rest from rfl, ht]
    rw [hpv]
    show min _ (min _ _) :: rowAux c1 rest (min _ (min _ _)) (lev P (c2 :: Q) :: t) = _
    rw [hv, ← ht, rowAux_spec c1 P rest (c2 :: Q),
      show prefVals (c1 :: P) Q (c2 :: rest)
        = lev (c1 :: P) Q :: prefVals (c1 :: P) (c2 :: Q) rest from rfl]
    rw [ht2]
    rfl

theorem dpLoop_spec (r : List Char) :
    ∀ ls P : List Char,
      dpLoop r ls (P.length + 1) (prefVals P [] r) = prefVals (ls.reverse ++ P) [] r
  | [], P => by simp [dpLoop]
  | c1 :: ls, P => by
    have hlen : (P.length + 1 : Nat) = lev (c1 :: P) [] := by
      rw [lev_nil_right]
      rfl
    have hrow : (P.length + 1 : Nat) :: rowAux c1 r (P.length + 1) (prefVals P [] r)
        = prefVals (c1 :: P) [] r := by
      obtain ⟨t, ht⟩ := prefVals_head (c1 :: P) r []
      rw [hlen, rowAux_spec c1 P r [], ht]
      rfl
    show dpLoop r ls (P.length + 1 + 1) ((P.length + 1) :: rowAux c1 r (P.length + 1)
      (prefVals P [] r)) = _
    rw [hrow]
    have ih := dpLoop_spec r ls (c1 :: P)
    simp only [List.length_cons] at ih
    rw [ih]
    simp [List.reverse_cons, List.append_assoc]

theorem prefVals_nil_left :
    ∀ rs Q : List Char, prefVals [] Q rs = List.range' Q.length (rs.length + 1)
  | [], Q => by simp [prefVals, lev_nil_left, List.range']
  | c2 :: rest, Q => by
    have ih := prefVals_nil_left rest (c2 :: Q)
    simp only [List.length_cons] at ih
    rw [show prefVals [] Q (c2 :: rest) = lev [] Q :: prefVals [] (c2 :: Q) rest from rfl,
      lev_nil_left, ih]
    simp [List.range'_succ, List.length_cons]

theorem prefVals_getLastD (P : List Char) :
    ∀ (rs Q : List Char) (d : Nat), (prefVals P Q rs).getLastD d = lev P (rs.reverse ++ Q)
  | [], Q, d => rfl
  | c2 :: rest, Q, d => by
    rw [show prefVals P Q (c2 :: rest) = lev P Q :: prefVals P (c2 :: Q) rest from rfl,
      List.getLastD_cons, prefVals_getLastD P rest (c2 :: Q) (lev P Q)]
    simp

/-- The embedded `_levenshtein` computes the reference distance of the two
reversed character lists. -/
theorem levenshteinPy_eq_lev (a b : String) :
    levenshteinPy a b = lev a.data.reverse b.data.reverse := by
  unfold levenshteinPy
  split_ifs with hab ha hb
  · rw [hab, lev_self]
  · have hda : a.data = [] := by rw [ha]
    rw [hda]
    simp only [List.reverse_nil]
    rw [lev_nil_left, List.length_reverse]
    rfl
  · have hdb : b.data = [] := by rw [hb]
    rw [hdb]
    simp only [List.reverse_nil]
    rw [lev_nil_right, List.length_reverse]
    rfl
  · have hr : List.range (b.length + 1) = prefVals [] [] b.data := by
      rw [prefVals_nil_left b.data [], List.range_eq_range']
      rfl
    rw [hr]
    have hd := dpLoop_spec b.data a.data []
    simp only [List.length_nil, List.append_nil, Nat.zero_add] at hd
    rw [hd, prefVals_getLastD a.data.reverse b.data []]
    simp

/-! ## Claim theorem: Levenshtein metric laws (C7) -/

/-- Claim C7: the matcher's Levenshtein distance is symmetric, zero on equal
strings, and satisfies the triangle inequality. -/
theorem levenshteinPy_metric (a b c : String) :
    levenshteinPy a b = levenshteinPy b a ∧ levenshteinPy a a = 0 ∧
      levenshteinPy a c ≤ levenshteinPy a b + levenshteinPy b c := by
  refine ⟨?_, by simp [levenshteinPy], ?_⟩
  · rw [levenshteinPy_eq_lev, levenshteinPy_eq_lev, lev_comm]
  · rw [levenshteinPy_eq_lev, levenshteinPy_eq_lev, levenshteinPy_eq_lev]
    exact lev_triangle _ _ _

/-! ## Union-find: key bookkeeping -/

theorem map_fst_aset_of_mem {α β : Type} [DecidableEq α] (l : List (α × β)) (k : α) (v : β)
    (h : k ∈ l.map Prod.fst) : (aset l k v).map Prod.fst = l.map Prod.fst := by
  induction l with
  | nil => simp at h
  | cons kv rest ih =>
    obtain ⟨k0, v0⟩ := kv
    by_cases hk : k0 = k
    · simp [aset, hk]
    · simp only [List.map_cons, List.mem_cons] at h
      rcases h with h | h

      · exact absurd h.symm hk
      · simp [aset, hk, ih h]

theorem map_fst_aset_of_not_mem {α β : Type} [DecidableEq α] (l : List (α × β)) (k : α) (v : β)
    (h : k ∉ l.map Prod.fst) : (aset l k v).map Prod.fst = l.map Prod.fst ++ [k] := by
  induction l with
  | nil => simp [aset]
  | cons kv rest ih =>
    obtain ⟨k0, v0⟩ := kv
    simp only [List.map_cons, List.mem_cons, not_or] at h
    have hk : k0 ≠ k := fun e => h.1 e.symm
    simp [aset, hk, ih h.2]

theorem nodup_map_fst_aset {α β : Type} [DecidableEq α] (l : List (α × β)) (k : α) (v : β)
    (h : (l.map Prod.fst).Nodup) : ((aset l k v).map Prod.fst).Nodup := by
  by_cases hk : k ∈ l.map Prod.fst
  · rw [map_fst_aset_of_mem l k v hk]
    exact h
  · rw [map_fst_aset_of_not_mem l k v hk]
    simp [List.nodup_append, h, hk]

theorem findAux_keys_nodup :
    ∀ (fuel : Nat) (p : UFParent) (x : String), (p.map Prod.fst).Nodup →
      (((findAux fuel p x).2).map Prod.fst).Nodup
  | 0, p, x, h => h
  | fuel + 1, p, x, h => by
    show ((match alookup p x with
      | none => (x, aset p x x)
      | some par =>
        if par = x then (x, p)
        else ((findAux fuel p par).1,
          aset (findAux fuel p par).2 x (findAux fuel p par).1)).2.map Prod.fst).Nodup
    cases halook : alookup p x with
    | none => exact nodup_map_fst_aset p x x h
    | some par =>
      by_cases hp : par = x
      · simp [hp, h]
      · simp only [if_neg hp]
        exact nodup_map_fst_aset _ x _ (findAux_keys_nodup fuel p par h)

theorem find_keys_nodup (p : UFParent) (x : String) (h : (p.map Prod.fst).Nodup) :
    (((UF.find p x).2).map Prod.fst).Nodup :=
  findAux_keys_nodup _ p x h

theorem union_keys_nodup (p : UFParent) (l r : String) (h : (p.map Prod.fst).Nodup) :
    (((UF.union p l r)).map Prod.fst).Nodup := by
  unfold UF.union
  have h1 := find_keys_nodup p l h
  have h2 := find_keys_nodup (UF.find p l).2 r h1
  by_cases hne : (UF.find p l).1 ≠ (UF.find (UF.find p l).2 r).1
  · simp only [if_pos hne]
    exact nodup_map_fst_aset _ _ _ h2
  · simp only [if_neg hne]
    exact h2

theorem unionAll_keys_nodup (cs : List MatchCandidate) :
    ((unionAll cs).map Prod.fst).Nodup := by
  have hgen : ∀ (l : List MatchCandidate) (p : UFParent), (p.map Prod.fst).Nodup →
      ((l.foldl (fun p c => UF.union p c.left_id c.right_id) p).map Prod.fst).Nodup := by
    intro l
    induction l with
    | nil => exact fun p h => h
    | cons c l ih =>
      intro p h
      rw [List.foldl_cons]
      exact ih _ (union_keys_nodup p c.left_id c.right_id h)
  exact hgen cs [] (by simp)

theorem scoreLoop_keys_nodup (cs : List MatchCandidate) (p : UFParent)
    (h : (p.map Prod.fst).Nodup) :
    (((scoreLoop cs p).1).map Prod.fst).Nodup := by
  have hgen : ∀ (l : List MatchCandidate) (st : UFParent × List (String × List ℚ)),
      (st.1.map Prod.fst).Nodup →
      ((l.foldl (fun st c =>
          ((UF.find st.1 c.left_id).2, dappend st.2 (UF.find st.1 c.left_id).1 c.score))
        st).1.map Prod.fst).Nodup := by
    intro l
    induction l with
    | nil => exact fun st h => h
    | cons c l ih =>
      intro st hst
      rw [List.foldl_cons]
      exact ih _ (find_keys_nodup st.1 c.left_id hst)
  exact hgen cs (p, []) h

/-! ## Union-find: `groups` distributes the keys into disjoint lists -/

theorem join_map_snd_dappend (acc : List (String × List String)) (k : String) (x : String) :
    ((dappend acc k x).map Prod.snd).flatten.Perm ((acc.map Prod.snd).flatten ++ [x]) := by
  induction acc with
  | nil => simp [dappend]
  | cons kl rest ih =>
    obtain ⟨k0, l0⟩ := kl
    by_cases hk : k0 = k
    · simp only [dappend, if_pos hk, List.map_cons, List.flatten_cons]
      have h2 := (List.perm_append_comm :
        ([x] ++ (rest.map Prod.snd).flatten).Perm _).append_left l0
      rw [← List.append_assoc, ← List.append_assoc] at h2
      exact h2
    · simp only [dappend, if_neg hk, List.map_cons, List.flatten_cons]
      have h2 := ih.append_left l0
      rw [← List.append_assoc] at h2
      exact h2

theorem groupsAux_join :
    ∀ (ks : List String) (p : UFParent) (acc : List (String × List String)),
      (((UF.groupsAux ks p acc).2).map Prod.snd).flatten.Perm
        ((acc.map Prod.snd).flatten ++ ks)
  | [], p, acc => by simp [UF.groupsAux]
  | k :: ks, p, acc => by
    show ((UF.groupsAux ks (UF.find p k).2 (dappend acc (UF.find p k).1 k)).2.map
      Prod.snd).flatten.Perm _
    have h1 := groupsAux_join ks (UF.find p k).2 (dappend acc (UF.find p k).1 k)
    have h2 := (join_map_snd_dappend acc (UF.find p k).1 k).append_right ks
    have h3 := h1.trans h2
    rw [List.append_assoc] at h3
    simpa using h3

theorem groups_join (p : UFParent) :
    (((UF.groups p).2).map Prod.snd).flatten.Perm (p.map Prod.fst) := by
  have h := groupsAux_join (p.map Prod.fst) p []
  simpa using h

/-! ## Pairwise disjointness through `filterMap` and sorting -/

theorem pairwise_filterMap_of_pairwise {α β : Type} (R : α → α → Prop) (S : β → β → Prop)
    (f : α → Option β)
    (hf : ∀ a1 a2 b1 b2, R a1 a2 → f a1 = some b1 → f a2 = some b2 → S b1 b2) :
    ∀ l : List α, l.Pairwise R → (l.filterMap f).Pairwise S := by
  intro l hl
  induction hl with
  | nil => simp
  | @cons x xs hx _ ih =>
    rw [List.filterMap_cons]
    cases hfx : f x with
    | none => exact ih
    | some b =>
      refine List.Pairwise.cons ?_ ih
      intro b2 hb2
      obtain ⟨a2, ha2, hfa2⟩ := List.mem_filterMap.mp hb2
      exact hf x a2 b b2 (hx a2 ha2) hfx hfa2

theorem mem_sortStr (l : List String) (x : String) : x ∈ sortStr l ↔ x ∈ l :=
  (List.mergeSort_perm l _).mem_iff

theorem length_sortStr (l : List String) : (sortStr l).length = l.length :=
  (List.mergeSort_perm l _).length_eq

theorem mem_sortClusters (l : List Cluster) (c : Cluster) : c ∈ sortClusters l ↔ c ∈ l :=
  (List.mergeSort_perm l _).mem_iff

/-! ## Claim theorem: clusters partition, size at least two (C5) -/

/-- Claim C5: the emitted clusters are pairwise disjoint (no record id occurs
in two clusters) and every emitted cluster has at least two member ids. -/
theorem cluster_partition (cs : List MatchCandidate) :
    (∀ cl ∈ cluster cs, 2 ≤ cl.record_ids.length) ∧
      (cluster cs).Pairwise fun c1 c2 => ∀ x ∈ c1.record_ids, x ∉ c2.record_ids := by
  by_cases hcs : cs = []
  · simp [cluster, hcs]
  · rw [cluster, if_neg hcs]
    constructor
    · intro cl hcl
      rw [mem_sortClusters] at hcl
      obtain ⟨rm, _, hrm⟩ := List.mem_filterMap.mp hcl
      unfold groupToCluster at hrm
      by_cases hlen : rm.2.length < 2
      · rw [if_pos hlen] at hrm
        cases hrm
      · rw [if_neg hlen] at hrm
        cases hrm
        show 2 ≤ (sortStr rm.2).length
        rw [length_sortStr]
        omega
    · have hnodup : (((scoreLoop cs (unionAll cs)).1).map Prod.fst).Nodup :=
        scoreLoop_keys_nodup cs (unionAll cs) (unionAll_keys_nodup cs)
      have hjoin := groups_join (scoreLoop cs (unionAll cs)).1
      have hjn : (((UF.groups (scoreLoop cs (unionAll cs)).1).2).map Prod.snd).flatten.Nodup :=
        hjoin.nodup_iff.mpr hnodup
      have hpair := (List.nodup_flatten.mp hjn).2
      have hpair2 : ((UF.groups (scoreLoop cs (unionAll cs)).1).2).Pairwise
          fun a b => a.2.Disjoint b.2 := List.pairwise_map.mp hpair
      have hfm : (clustersOf cs).Pairwise fun c1 c2 => ∀ x ∈ c1.record_ids, x ∉ c2.record_ids := by
        refine pairwise_filterMap_of_pairwise _ _ _ ?_ _ hpair2
        intro a1 a2 b1 b2 hR h1 h2
        unfold groupToCluster at h1 h2
        split at h1
        · cases h1
        cases h1
        split at h2
        · cases h2
        cases h2
        intro x hx
        rw [mem_sortStr] at hx
        rw [mem_sortStr]
        exact hR hx
      have hsymm : ∀ {c1 c2 : Cluster}, (∀ x ∈ c1.record_ids, x ∉ c2.record_ids) →
          ∀ x ∈ c2.record_ids, x ∉ c1.record_ids := fun h x hx2 hx1 => h x hx1 hx2
      exact ((List.mergeSort_perm (clustersOf cs)
        fun a b => decide (a.cluster_id ≤ b.cluster_id)).pairwise_iff hsymm).mpr hfm

/-! ## Dict lemmas for the union-find development -/

theorem alookup_aset_self {α β : Type} [DecidableEq α] (l : List (α × β)) (k : α) (v : β) :
    alookup (aset l k v) k = some v := by
  induction l with
  | nil => simp [aset, alookup]
  | cons kv rest ih =>
    obtain ⟨k0, v0⟩ := kv
    by_cases hk : k0 = k
    · simp [aset, hk, alookup]
    · simp [aset, hk, alookup, ih]

theorem alookup_aset_ne {α β : Type} [DecidableEq α] (l : List (α × β)) (k k' : α) (v : β)
    (h : k' ≠ k) : alookup (aset l k v) k' = alookup l k' := by
  have h2 : k ≠ k' := fun e => h e.symm
  induction l with
  | nil => simp [aset, alookup, h2]
  | cons kv rest ih =>
    obtain ⟨k0, v0⟩ := kv
    by_cases hk : k0 = k
    · subst hk
      simp [aset, alookup, h2]
    · simp only [aset, if_neg hk]
      by_cases hk' : k0 = k'
      · simp [alookup, hk']
      · simp [alookup, hk', ih]

theorem alookup_eq_none_iff {α β : Type} [DecidableEq α] (l : List (α × β)) (k : α) :
    alookup l k = none ↔ k ∉ l.map Prod.fst := by
  rw [← alookup_isSome_iff]
  cases alookup l k <;> simp

theorem mem_of_alookup_eq_some {α β : Type} [DecidableEq α] (l : List (α × β)) (k : α) (v : β)
    (h : alookup l k = some v) : (k, v) ∈ l := by
  induction l with
  | nil => simp [alookup] at h
  | cons kv rest ih =>
    obtain ⟨k0, v0⟩ := kv
    by_cases hk : k0 = k
    · subst hk
      simp [alookup] at h
      simp [h]
    · simp only [alookup, if_neg hk] at h
      exact List.mem_cons_of_mem _ (ih h)

theorem mem_keys_of_alookup {α β : Type} [DecidableEq α] (l : List (α × β)) (k : α) (v : β)
    (h : alookup l k = some v) : k ∈ l.map Prod.fst := by
  rw [← alookup_isSome_iff, h]
  rfl

theorem alookup_eq_some_of_mem {α β : Type} [DecidableEq α] (l : List (α × β)) (k : α) (v : β)
    (hnodup : (l.map Prod.fst).Nodup) (hmem : (k, v) ∈ l) : alookup l k = some v := by
  induction l with
  | nil => simp at hmem
  | cons kv rest ih =>
    obtain ⟨k0, v0⟩ := kv
    rcases List.mem_cons.mp hmem with h | h
    · cases h
      simp [alookup]
    · have hk : k0 ≠ k := by
        intro e
        subst e
        exact (List.nodup_cons.mp hnodup).1
          (List.mem_map.mpr ⟨(k0, v), h, rfl⟩)
      simp only [alookup, if_neg hk]
      exact ih (List.nodup_cons.mp hnodup).2 h

theorem mem_aset_iff {α β : Type} [DecidableEq α] (l : List (α × β)) (k : α) (v : β)
    (kv : α × β) (hnodup : (l.map Prod.fst).Nodup) :
    kv ∈ aset l k v ↔ (kv = (k, v) ∨ (kv ∈ l ∧ kv.1 ≠ k)) := by
  induction l with
  | nil => simp [aset]
  | cons e rest ih =>
    obtain ⟨k0, v0⟩ := e
    have hnd := List.nodup_cons.mp hnodup
    by_cases hk : k0 = k
    · subst hk
      have ha : aset ((k0, v0) :: rest) k0 v = (k0, v) :: rest := by
        simp [aset]
      rw [ha]
      constructor
      · intro h
        rcases List.mem_cons.mp h with h | h
        · exact Or.inl h
        · exact Or.inr ⟨List.mem_cons_of_mem _ h,
            fun he => hnd.1 (List.mem_map.mpr ⟨kv, h, he⟩)⟩
      · rintro (h | ⟨hmem, hne⟩)
        · rw [h]
          exact List.mem_cons_self _ _
        · rcases List.mem_cons.mp hmem with h | h
          · exact absurd (congrArg Prod.fst h) (by simpa using hne)
          · exact List.mem_cons_of_mem _ h
    · have ha : aset ((k0, v0) :: rest) k v = (k0, v0) :: aset rest k v := by
        simp [aset, hk]
      rw [ha]
      constructor
      · intro h
        rcases List.mem_cons.mp h with h | h
        · refine Or.inr ⟨?_, ?_⟩
          · rw [h]
            exact List.mem_cons_self _ _
          · rw [h]
            exact hk
        · rcases (ih hnd.2).mp h with h | h
          · exact Or.inl h
          · exact Or.inr ⟨List.mem_cons_of_mem _ h.1, h.2⟩
      · rintro (h | ⟨hmem, hne⟩)
        · exact List.mem_cons_of_mem _ ((ih hnd.2).mpr (Or.inl h))
        · rcases List.mem_cons.mp hmem with h | h
          · rw [h]
            exact List.mem_cons_self _ _
          · exact List.mem_cons_of_mem _ ((ih hnd.2).mpr (Or.inr ⟨h, hne⟩))

theorem glist_dappend {β : Type} (m : List (String × List β)) (k k' : String) (x : β) :
    glist (dappend m k x) k' = if k' = k then glist m k' ++ [x] else glist m k' := by
  induction m with
  | nil =>
    by_cases h : k' = k
    · subst h
      simp [dappend, glist, alookup]
    · have h2 : k ≠ k' := fun e => h e.symm
      simp [dappend, glist, alookup, h2, h]
  | cons e rest ih =>
    obtain ⟨k0, l0⟩ := e
    by_cases hk : k0 = k
    · subst hk
      by_cases h : k' = k0
      · subst h
        simp [dappend, glist, alookup]
      · have h2 : k0 ≠ k' := fun e => h e.symm
        simp [dappend, glist, alookup, h2, h]
    · by_cases h : k0 = k'
      · have hne : k' ≠ k := by
          rw [← h]
          exact fun e => hk e
        subst h
        simp [dappend, if_neg hk, glist, alookup, hne]
      · simp only [dappend, if_neg hk]
        simp only [glist, alookup, if_neg h] at ih ⊢
        exact ih

/-! ## Reaches: basic facts -/

theorem reachesN_reaches {p : UFParent} {n : Nat} {x r : String} (h : ReachesN p n x r) :
    Reaches p x r := by
  induction h with
  | self x h => exact Reaches.self x h
  | outside x h => exact Reaches.outside x h
  | step n x y r h hne _ ih => exact Reaches.step x y r h hne ih

theorem reaches_reachesN {p : UFParent} {x r : String} (h : Reaches p x r) :
    ∃ n, ReachesN p n x r := by
  induction h with
  | self x h => exact ⟨0, ReachesN.self x h⟩
  | outside x h => exact ⟨0, ReachesN.outside x h⟩
  | step x y r h hne _ ih =>
    obtain ⟨n, hn⟩ := ih
    exact ⟨n + 1, ReachesN.step n x y r h hne hn⟩

theorem reaches_unique {p : UFParent} {x r1 r2 : String} (h1 : Reaches p x r1)
    (h2 : Reaches p x r2) : r1 = r2 := by
  induction h1 with
  | self x h =>
    cases h2 with
    | self _ _ => rfl
    | outside _ h' => rw [h] at h'
    | step _ y _ h' hne _ =>
      rw [h] at h'
      cases h'
      exact absurd rfl hne
  | outside x h =>
    cases h2 with
    | self _ h' => rw [h] at h'
    | outside _ _ => rfl
    | step _ y _ h' _ _ => rw [h] at h'; cases h'
  | step x y r h hne hr ih =>
    cases h2 with
    | self _ h' =>
      rw [h] at h'
      cases h'
      exact absurd rfl hne
    | outside _ h' => rw [h] at h'; cases h'
    | step _ y' _ h' hne' hr' =>
      rw [h] at h'
      cases h'
      exact ih hr'

theorem reaches_root {p : UFParent} {x r : String} (h : Reaches p x r) : Reaches p r r := by
  induction h with
  | self x h => exact Reaches.self x h
  | outside x h => exact Reaches.outside x h
  | step x y r h hne hr ih => exact ih

theorem reaches_self_of_root {p : UFParent} {r s : String}
    (hroot : alookup p r = some r ∨ alookup p r = none) (h : Reaches p r s) : s = r := by
  cases h with
  | self _ _ => rfl
  | outside _ _ => rfl
  | step _ y _ h' hne _ =>
    rcases hroot with hr | hr
    · rw [h'] at hr
      cases hr
      exact absurd rfl hne
    · rw [h'] at hr
      cases hr

theorem reachesN_zero {p : UFParent} {x r : String} (h : ReachesN p 0 x r) : r = x := by
  cases h <;> rfl

theorem reachesN_height_lt {p : UFParent} {h : String → Nat} (hh : HeightCond p h) :
    ∀ {n x r}, ReachesN p n x r → 0 < n → h r < h x := by
  intro n x r hr
  induction hr with
  | self x h0 => intro hn; exact absurd hn (lt_irrefl 0)
  | outside x h0 => intro hn; exact absurd hn (lt_irrefl 0)
  | step n x y r hl hne hrest ih =>
    intro _
    have hyx : h y < h x := hh (x, y) (mem_of_alookup_eq_some _ _ _ hl) hne
    rcases Nat.eq_zero_or_pos n with h0 | hpos
    · subst h0
      rw [reachesN_zero hrest]
      exact hyx
    · exact lt_trans (ih hpos) hyx

theorem reachesN_le_keys {p : UFParent} {h : String → Nat} (hcv : ClosedVals p)
    (hh : HeightCond p h) :
    ∀ {n x r}, ReachesN p n x r → n ≤ (p.map Prod.fst).length := by
  have chain : ∀ {n x r}, ReachesN p n x r →
      ∃ l : List String, l.length = n ∧ l.Nodup ∧ (∀ z ∈ l, z ∈ p.map Prod.fst) ∧
        (∀ z ∈ l, h z < h x) := by
    intro n x r hr
    induction hr with
    | self x h0 => exact ⟨[], rfl, List.nodup_nil, by simp, by simp⟩
    | outside x h0 => exact ⟨[], rfl, List.nodup_nil, by simp, by simp⟩
    | step n x y r hl hne hrest ih =>
      obtain ⟨l, hlen, hnd, hkeys, hlt⟩ := ih
      have hmem := mem_of_alookup_eq_some _ _ _ hl
      have hyk : y ∈ p.map Prod.fst := hcv (x, y) hmem
      have hyx : h y < h x := hh (x, y) hmem hne
      refine ⟨y :: l, by simp [hlen], ?_, ?_, ?_⟩
      · refine List.nodup_cons.mpr ⟨?_, hnd⟩
        intro hy
        exact absurd (hlt y hy) (lt_irrefl _)
      · intro z hz
        rcases List.mem_cons.mp hz with hz | hz
        · rw [hz]; exact hyk
        · exact hkeys z hz
      · intro z hz
        rcases List.mem_cons.mp hz with hz | hz
        · rw [hz]; exact hyx
        · exact lt_trans (hlt z hz) hyx
  intro n x r hr
  obtain ⟨l, hlen, hnd, hkeys, _⟩ := chain hr
  have h1 : l.toFinset.card = l.length := List.toFinset_card_of_nodup hnd
  have h2 : l.toFinset ⊆ (p.map Prod.fst).toFinset := fun z hz =>
    List.mem_toFinset.mpr (hkeys z (List.mem_toFinset.mp hz))
  calc n = l.toFinset.card := by rw [h1, hlen]
    _ ≤ (p.map Prod.fst).toFinset.card := Finset.card_le_card h2
    _ ≤ (p.map Prod.fst).length := (p.map Prod.fst).toFinset_card_le

theorem ufwf_total {p : UFParent} (hwf : UFWF p) (x : String) :
    ∃ n r, ReachesN p n x r := by
  obtain ⟨hnd, hcv, h, hh⟩ := hwf
  by_cases hx : x ∈ p.map Prod.fst
  · have main : ∀ m, ∀ y, y ∈ p.map Prod.fst → h y ≤ m → ∃ n r, ReachesN p n y r := by
      intro m
      induction m with
      | zero =>
        intro y hy hle
        obtain ⟨v, hv⟩ := Option.isSome_iff_exists.mp ((alookup_isSome_iff p y).mpr hy)
        by_cases hvy : v = y
        · subst hvy
          exact ⟨0, v, ReachesN.self v hv⟩
        · have hlt : h v < h y := hh (y, v) (mem_of_alookup_eq_some _ _ _ hv) hvy
          omega
      | succ m ih =>
        intro y hy hle
        obtain ⟨v, hv⟩ := Option.isSome_iff_exists.mp ((alookup_isSome_iff p y).mpr hy)
        by_cases hvy : v = y
        · subst hvy
          exact ⟨0, v, ReachesN.self v hv⟩
        · have hmem := mem_of_alookup_eq_some _ _ _ hv
          have hlt : h v < h y := hh (y, v) hmem hvy
          obtain ⟨n, r, hr⟩ := ih v (hcv (y, v) hmem) (by omega)
          exact ⟨n + 1, r, ReachesN.step n y v r hv hvy hr⟩
    exact main (h x) x hx le_rfl
  · exact ⟨0, x, ReachesN.outside x ((alookup_eq_none_iff p x).mpr hx)⟩

theorem reachesN_root_mem {p : UFParent} (hcv : ClosedVals p) :
    ∀ {n x r}, ReachesN p n x r → x ∈ p.map Prod.fst → r ∈ p.map Prod.fst := by
  intro n x r hr
  induction hr with
  | self x h => exact fun hx => hx
  | outside x h => exact fun hx => hx
  | step n x y r h hne hrest ih =>
    intro _
    exact ih (hcv (x, y) (mem_of_alookup_eq_some _ _ _ h))

theorem reaches_root_lookup {p : UFParent} {h : String → Nat} (hh : HeightCond p h)
    {r : String} (hroot : Reaches p r r) :
    alookup p r = some r ∨ alookup p r = none := by
  cases hroot with
  | self _ h' => exact Or.inl h'
  | outside _ h' => exact Or.inr h'
  | step _ y _ h' hne hr =>
    exfalso
    obtain ⟨n, hn⟩ := reaches_reachesN hr
    have hstep := ReachesN.step n r y r h' hne hn
    exact absurd (reachesN_height_lt hh hstep (Nat.succ_pos n)) (lt_irrefl _)

/-- Lazily inserting a missing item as its own parent does not change the
reachability relation. -/
theorem reaches_insert_self {p : UFParent} {x : String} (hx : x ∉ p.map Prod.fst) :
    ∀ y s, Reaches (aset p x x) y s ↔ Reaches p y s := by
  have hl : ∀ z, z ≠ x → alookup (aset p x x) z = alookup p z := fun z hz =>
    alookup_aset_ne p x z x hz
  have hlx : alookup (aset p x x) x = some x := alookup_aset_self p x x
  have hpx : alookup p x = none := (alookup_eq_none_iff p x).mpr hx
  intro y s
  constructor
  · intro hd
    induction hd with
    | self z h =>
      by_cases hz : z = x
      · subst hz
        exact Reaches.outside z hpx
      · rw [hl z hz] at h
        exact Reaches.self z h
    | outside z h =>
      by_cases hz : z = x
      · subst hz
        rw [hlx] at h
        cases h
      · rw [hl z hz] at h
        exact Reaches.outside z h
    | step z w s h hne hrest ih =>
      by_cases hz : z = x
      · subst hz
        rw [hlx] at h
        cases h
        exact absurd rfl hne
      · rw [hl z hz] at h
        exact Reaches.step z w s h hne ih
  · intro hd
    induction hd with
    | self z h =>
      have hz : z ≠ x := by
        intro e
        subst e
        rw [hpx] at h
        cases h
      exact Reaches.self z (by rw [hl z hz]; exact h)
    | outside z h =>
      by_cases hz : z = x
      · subst hz
        exact Reaches.self z hlx
      · exact Reaches.outside z (by rw [hl z hz]; exact h)
    | step z w s h hne hrest ih =>
      have hz : z ≠ x := by
        intro e
        subst e
        rw [hpx] at h
        cases h
      exact Reaches.step z w s (by rw [hl z hz]; exact h) hne ih

/-- Path compression: rewriting an item's parent to its root does not change
the reachability relation. -/
theorem reaches_compress {p : UFParent} {h : String → Nat} (hh : HeightCond p h)
    {x par r : String} (hx : alookup p x = some par) (hpar : par ≠ x)
    (hr : Reaches p x r) :
    ∀ y s, Reaches (aset p x r) y s ↔ Reaches p y s := by
  have hrx : r ≠ x := by
    intro e
    subst e
    obtain ⟨n, hn⟩ := reaches_reachesN hr
    cases hn with
    | self _ h' =>
      rw [hx] at h'
      cases h'
      exact hpar rfl
    | outside _ h' => rw [hx] at h'; cases h'
    | step m _ y _ h' hne hrest =>
      exact absurd (reachesN_height_lt hh (ReachesN.step m r y r h' hne hrest)
        (Nat.succ_pos m)) (lt_irrefl _)
  have hparR : Reaches p par r := by
    cases hr with
    | self _ h' =>
      rw [hx] at h'
      cases h'
      exact absurd rfl hpar
    | outside _ h' => rw [hx] at h'; cases h'
    | step _ y _ h' hne hrest =>
      rw [hx] at h'
      cases h'
      exact hrest
  have hroot : alookup p r = some r ∨ alookup p r = none :=
    reaches_root_lookup hh (reaches_root hr)
  have hl : ∀ z, z ≠ x → alookup (aset p x r) z = alookup p z := fun z hz =>
    alookup_aset_ne p x z r hz
  have hlx : alookup (aset p x r) x = some r := alookup_aset_self p x r
  have hroot' : alookup (aset p x r) r = some r ∨ alookup (aset p x r) r = none := by
    rw [hl r hrx]
    exact hroot
  have hrootP' : Reaches (aset p x r) r r := by
    rcases hroot' with h' | h'
    · exact Reaches.self r h'
    · exact Reaches.outside r h'
  intro y s
  constructor
  · intro hd
    induction hd with
    | self z h' =>
      by_cases hz : z = x
      · subst hz
        rw [hlx] at h'
        cases h'
        exact absurd rfl hrx
      · rw [hl z hz] at h'
        exact Reaches.self z h'
    | outside z h' =>
      by_cases hz : z = x
      · subst hz
        rw [hlx] at h'
        cases h'
      · rw [hl z hz] at h'
        exact Reaches.outside z h'
    | step z w s h' hne hrest ih =>
      by_cases hz : z = x
      · subst hz
        rw [hlx] at h'
        cases h'
        have hs : s = r := reaches_self_of_root hroot' hrest
        rw [hs]
        exact hr
      · rw [hl z hz] at h'
        exact Reaches.step z w s h' hne ih
  · intro hd
    induction hd with
    | self z h' =>
      by_cases hz : z = x
      · subst hz
        rw [hx] at h'
        cases h'
        exact absurd rfl hpar
      · exact Reaches.self z (by rw [hl z hz]; exact h')
    | outside z h' =>
      by_cases hz : z = x
      · subst hz
        rw [hx] at h'
        cases h'
      · exact Reaches.outside z (by rw [hl z hz]; exact h')
    | step z w s h' hne hrest ih =>
      by_cases hz : z = x
      · subst hz
        rw [hx] at h'
        cases h'
        have hs : s = r := reaches_unique hrest hparR
        rw [hs]
        exact Reaches.step z r r hlx hrx hrootP'
      · exact Reaches.step z w s (by rw [hl z hz]; exact h') hne ih

/-- Linking root `rr` under root `rl` moves exactly the `rr`-component to
root `rl` and changes nothing else. -/
theorem reaches_link {p : UFParent} {rl rr : String}
    (hrl : alookup p rl = some rl) (hrr : alookup p rr = some rr) (hne : rl ≠ rr) :
    ∀ y s, Reaches (aset p rr rl) y s ↔
      ((Reaches p y s ∧ s ≠ rr) ∨ (Reaches p y rr ∧ s = rl)) := by
  have hl : ∀ z, z ≠ rr → alookup (aset p rr rl) z = alookup p z := fun z hz =>
    alookup_aset_ne p rr z rl hz
  have hlrr : alookup (aset p rr rl) rr = some rl := alookup_aset_self p rr rl
  have hrlroot : Reaches (aset p rr rl) rl rl :=
    Reaches.self rl (by rw [hl rl hne]; exact hrl)
  have auxA : ∀ y s, Reaches p y s → s ≠ rr → Reaches (aset p rr rl) y s := by
    intro y s hre
    induction hre with
    | self z h' =>
      intro hsne
      exact Reaches.self z (by rw [hl z hsne]; exact h')
    | outside z h' =>
      intro hsne
      exact Reaches.outside z (by rw [hl z hsne]; exact h')
    | step z w s h' hne' hrest ih =>
      intro hsne
      have hz : z ≠ rr := by
        intro e
        subst e
        rw [hrr] at h'
        cases h'
        exact hne' rfl
      exact Reaches.step z w s (by rw [hl z hz]; exact h') hne' (ih hsne)
  have auxB : ∀ y s, Reaches p y s → s = rr → Reaches (aset p rr rl) y rl := by
    intro y s hre
    induction hre with
    | self z h' =>
      intro hseq
      subst hseq
      exact Reaches.step z rl rl hlrr hne hrlroot
    | outside z h' =>
      intro hseq
      subst hseq
      rw [hrr] at h'
      cases h'
    | step z w s h' hne' hrest ih =>
      intro hseq
      have hz : z ≠ rr := by
        intro e
        subst e
        rw [hrr] at h'
        cases h'
        exact hne' rfl
      exact Reaches.step z w rl (by rw [hl z hz]; exact h') hne' (ih hseq)
  intro y s
  constructor
  · intro hd
    induction hd with
    | self z h' =>
      by_cases hz : z = rr
      · subst hz
        rw [hlrr] at h'
        cases h'
        exact absurd rfl hne
      · rw [hl z hz] at h'
        exact Or.inl ⟨Reaches.self z h', hz⟩
    | outside z h' =>
      by_cases hz : z = rr
      · subst hz
        rw [hlrr] at h'
        cases h'
      · rw [hl z hz] at h'
        exact Or.inl ⟨Reaches.outside z h', hz⟩
    | step z w s h' hne' hrest ih =>
      by_cases hz : z = rr
      · subst hz
        rw [hlrr] at h'
        cases h'
        have hs : s = rl := reaches_self_of_root
          (Or.inl (by rw [hl rl hne]; exact hrl)) hrest
        exact Or.inr ⟨Reaches.self z hrr, hs⟩
      · rw [hl z hz] at h'
        rcases ih with ⟨hre, hsne⟩ | ⟨hre, hseq⟩
        · exact Or.inl ⟨Reaches.step z w s h' hne' hre, hsne⟩
        · exact Or.inr ⟨Reaches.step z w rr h' hne' hre, hseq⟩
  · intro hd
    rcases hd with ⟨hre, hsne⟩ | ⟨hre, hseq⟩
    · exact auxA y s hre hsne
    · rw [hseq]
      exact auxB y rr hre rfl

/-- `aset` on a fresh key is an append. -/
theorem aset_eq_append_of_not_mem {α β : Type} [DecidableEq α] (l : List (α × β)) (k : α)
    (v : β) (h : k ∉ l.map Prod.fst) : aset l k v = l ++ [(k, v)] := by
  induction l with
  | nil => rfl
  | cons kv rest ih =>
    obtain ⟨k0, v0⟩ := kv
    simp only [List.map_cons, List.mem_cons, not_or] at h
    have hk : k0 ≠ k := fun e => h.1 e.symm
    simp [aset, hk, ih h.2]

/-- Full correctness of the fuel-bounded path-compressing find: on a
well-formed state with enough fuel it returns the reference root, preserves
well-formedness and the reachability relation, and extends the key list by
at most the looked-up item. -/
theorem findAux_spec :
    ∀ (fuel n : Nat) (p : UFParent) (x r : String) (h : String → Nat),
      (p.map Prod.fst).Nodup → ClosedVals p → HeightCond p h →
      ReachesN p n x r → n < fuel →
      (findAux fuel p x).1 = r ∧
      ((findAux fuel p x).2.map Prod.fst).Nodup ∧
      ClosedVals (findAux fuel p x).2 ∧
      HeightCond (findAux fuel p x).2 h ∧
      (∀ y s, Reaches (findAux fuel p x).2 y s ↔ Reaches p y s) ∧
      (x ∈ p.map Prod.fst → (findAux fuel p x).2.map Prod.fst = p.map Prod.fst) ∧
      (x ∉ p.map Prod.fst → (findAux fuel p x).2.map Prod.fst = p.map Prod.fst ++ [x]) := by
  intro fuel n p x r h hnd hcv hh hr
  induction hr generalizing fuel with
  | self z hz =>
    intro hfuel
    cases fuel with
    | zero => omega
    | succ f =>
      have heq : findAux (f + 1) p z = (z, p) := by
        simp [findAux, hz]
      rw [heq]
      have hzk : z ∈ p.map Prod.fst := mem_keys_of_alookup p z z hz
      exact ⟨rfl, hnd, hcv, hh, fun y s => Iff.rfl, fun _ => rfl, fun hc => absurd hzk hc⟩
  | outside z hz =>
    intro hfuel
    cases fuel with
    | zero => omega
    | succ f =>
      have heq : findAux (f + 1) p z = (z, aset p z z) := by
        simp [findAux, hz]
      rw [heq]
      have hzk : z ∉ p.map Prod.fst := (alookup_eq_none_iff p z).mp hz
      have happ : aset p z z = p ++ [(z, z)] := aset_eq_append_of_not_mem p z z hzk
      refine ⟨rfl, nodup_map_fst_aset p z z hnd, ?_, ?_, reaches_insert_self hzk, ?_, ?_⟩
      · intro kv hkv
        rw [happ] at hkv ⊢
        rcases List.mem_append.mp hkv with hkv | hkv
        · rw [List.map_append]
          exact List.mem_append_left _ (hcv kv hkv)
        · simp at hkv
          subst hkv
          simp
      · intro kv hkv
        rw [happ] at hkv
        rcases List.mem_append.mp hkv with hkv | hkv
        · exact hh kv hkv
        · simp at hkv
          subst hkv
          intro hcontra
          exact absurd rfl hcontra
      · intro hc
        exact absurd hc hzk
      · intro _
        exact map_fst_aset_of_not_mem p z z hzk
  | step m z w r hz hwz hrest ih =>
    intro hfuel
    cases fuel with
    | zero => omega
    | succ f =>
      have heq : findAux (f + 1) p z
          = ((findAux f p w).1, aset (findAux f p w).2 z (findAux f p w).1) := by
        simp [findAux, hz, hwz]
      have hzk : z ∈ p.map Prod.fst := mem_keys_of_alookup p z w hz
      have hwk : w ∈ p.map Prod.fst := hcv (z, w) (mem_of_alookup_eq_some p z w hz)
      have IH := ih f (by omega)
      obtain ⟨ih1, ih2, ih3, ih4, ih5, ih6, _⟩ := IH
      have hkeys0 : (findAux f p w).2.map Prod.fst = p.map Prod.fst := ih6 hwk
      have hzk0 : z ∈ (findAux f p w).2.map Prod.fst := by
        rw [hkeys0]
        exact hzk
      have hrk : r ∈ p.map Prod.fst := reachesN_root_mem hcv hrest hwk
      have hrfull : ReachesN p (m + 1) z r := ReachesN.step m z w r hz hwz hrest
      have hltr : h r < h z := reachesN_height_lt hh hrfull (Nat.succ_pos m)
      have hrz : r ≠ z := by
        intro e
        rw [e] at hltr
        exact absurd hltr (lt_irrefl _)
      have hreach_p : Reaches p z r := reachesN_reaches hrfull
      have hreach_p0 : Reaches (findAux f p w).2 z r := (ih5 z r).mpr hreach_p
      -- z's entry in the recursive result state
      obtain ⟨par', hpar'⟩ := Option.isSome_iff_exists.mp
        ((alookup_isSome_iff (findAux f p w).2 z).mpr hzk0)
      have hpar'z : par' ≠ z := by
        intro e
        subst e
        exact hrz (reaches_unique hreach_p0 (Reaches.self _ hpar'))
      have hcompress := reaches_compress ih4 hpar' hpar'z hreach_p0
      have hkeys1 : (aset (findAux f p w).2 z (findAux f p w).1).map Prod.fst
          = (findAux f p w).2.map Prod.fst :=
        map_fst_aset_of_mem _ z _ hzk0
      rw [heq]
      refine ⟨ih1, ?_, ?_, ?_, ?_, ?_, ?_⟩
      · show ((aset (findAux f p w).2 z (findAux f p w).1).map Prod.fst).Nodup
        exact nodup_map_fst_aset _ z _ ih2
      · show ClosedVals (aset (findAux f p w).2 z (findAux f p w).1)
        intro kv hkv
        rcases (mem_aset_iff _ z _ kv ih2).mp hkv with hkv | ⟨hkv, _⟩
        · subst hkv
          show (findAux f p w).1 ∈ (aset (findAux f p w).2 z (findAux f p w).1).map Prod.fst
          rw [hkeys1, hkeys0, ih1]
          exact hrk
        · show kv.2 ∈ (aset (findAux f p w).2 z (findAux f p w).1).map Prod.fst
          rw [hkeys1]
          exact ih3 kv hkv
      · show HeightCond (aset (findAux f p w).2 z (findAux f p w).1) h
        intro kv hkv
        rcases (mem_aset_iff _ z _ kv ih2).mp hkv with hkv | ⟨hkv, _⟩
        · subst hkv
          intro _
          show h (findAux f p w).1 < h z
          rw [ih1]
          exact hltr
        · exact ih4 kv hkv
      · intro y s
        have hgoal : ((findAux f p w).1, aset (findAux f p w).2 z (findAux f p w).1).2
            = aset (findAux f p w).2 z r := by rw [ih1]
        rw [hgoal]
        exact (hcompress y s).trans (ih5 y s)
      · intro _
        show (aset (findAux f p w).2 z (findAux f p w).1).map Prod.fst = p.map Prod.fst
        rw [hkeys1, hkeys0]
      · intro hc
        exact absurd hzk hc

/-- `UF.find` on a well-formed state: returns the reference root, preserves
well-formedness and the reachability relation, and inserts at most the
looked-up item. -/
theorem find_spec (p : UFParent) (x : String) (hwf : UFWF p) :
    Reaches p x (UF.find p x).1 ∧
    UFWF (UF.find p x).2 ∧
    (∀ y s, Reaches (UF.find p x).2 y s ↔ Reaches p y s) ∧
    (x ∈ p.map Prod.fst → (UF.find p x).2.map Prod.fst = p.map Prod.fst) ∧
    (x ∉ p.map Prod.fst → (UF.find p x).2.map Prod.fst = p.map Prod.fst ++ [x]) := by
  obtain ⟨hnd, hcv, h, hh⟩ := hwf
  obtain ⟨n, r, hr⟩ := ufwf_total ⟨hnd, hcv, h, hh⟩ x
  have hb : n ≤ (p.map Prod.fst).length := reachesN_le_keys hcv hh hr
  have hlen : (p.map Prod.fst).length = p.length := List.length_map p Prod.fst
  have H := findAux_spec (p.length + 1) n p x r h hnd hcv hh hr (by omega)
  refine ⟨?_, ⟨H.2.1, H.2.2.1, h, H.2.2.2.1⟩, H.2.2.2.2.1, H.2.2.2.2.2.1, H.2.2.2.2.2.2⟩
  show Reaches p x (findAux (p.length + 1) p x).1
  rw [H.1]
  exact reachesN_reaches hr

/-! ## SameRoot is an equivalence on well-formed states -/

theorem sameRoot_refl {p : UFParent} (hwf : UFWF p) (x : String) : SameRoot p x x := by
  obtain ⟨n, r, hr⟩ := ufwf_total hwf x
  exact ⟨r, reachesN_reaches hr, reachesN_reaches hr⟩

theorem sameRoot_symm {p : UFParent} {x y : String} (h : SameRoot p x y) : SameRoot p y x :=
  ⟨h.choose, h.choose_spec.2, h.choose_spec.1⟩

theorem sameRoot_trans {p : UFParent} {x y z : String} (h1 : SameRoot p x y)
    (h2 : SameRoot p y z) : SameRoot p x z := by
  obtain ⟨r1, hx, hy⟩ := h1
  obtain ⟨r2, hy', hz⟩ := h2
  rw [reaches_unique hy hy'] at hx
  exact ⟨r2, hx, hz⟩

theorem reaches_root_lookup_mem {q : UFParent} (hwf : UFWF q) {x r : String}
    (hx : Reaches q x r) (hxk : x ∈ q.map Prod.fst) : alookup q r = some r := by
  obtain ⟨hnd, hcv, h, hh⟩ := hwf
  obtain ⟨n, hn⟩ := reaches_reachesN hx
  have hmem : r ∈ q.map Prod.fst := reachesN_root_mem hcv hn hxk
  rcases reaches_root_lookup hh (reaches_root hx) with h' | h'
  · exact h'
  · exact absurd hmem ((alookup_eq_none_iff q r).mp h')

theorem find_keys_iff (p : UFParent) (x : String) (hwf : UFWF p) (z : String) :
    z ∈ (UF.find p x).2.map Prod.fst ↔ (z ∈ p.map Prod.fst ∨ z = x) := by
  obtain ⟨_, _, _, hkin, hkout⟩ := find_spec p x hwf
  by_cases hx : x ∈ p.map Prod.fst
  · rw [hkin hx]
    constructor
    · exact .inl
    · rintro (h | h)
      · exact h
      · rw [h]; exact hx
  · rw [hkout hx]
    simp

/-! ## Union: well-formedness and the component join -/

theorem union_eq_link {p : UFParent} {a b : String}
    (hne : (UF.find p a).1 ≠ (UF.find (UF.find p a).2 b).1) :
    UF.union p a b = aset (UF.find (UF.find p a).2 b).2 (UF.find (UF.find p a).2 b).1
      (UF.find p a).1 := by
  simp [UF.union, hne]

theorem union_eq_no_link {p : UFParent} {a b : String}
    (heq : (UF.find p a).1 = (UF.find (UF.find p a).2 b).1) :
    UF.union p a b = (UF.find (UF.find p a).2 b).2 := by
  simp [UF.union, heq]

theorem heightCond_link {q : UFParent} {h : String → Nat} {rl rr : String}
    (hnd : (q.map Prod.fst).Nodup) (hh : HeightCond q h)
    (hrl : alookup q rl = some rl) (hrr : alookup q rr = some rr) (hne : rl ≠ rr) :
    ∃ h2 : String → Nat, HeightCond (aset q rr rl) h2 := by
  classical
  refine ⟨fun z => if Reaches q z rr then h z + (h rl + 1) else h z, ?_⟩
  intro kv hkv hne2
  rcases (mem_aset_iff q rr rl kv hnd).mp hkv with hkv | ⟨hkv, hkne⟩
  · subst hkv
    show (if Reaches q rl rr then h rl + (h rl + 1) else h rl)
      < (if Reaches q rr rr then h rr + (h rl + 1) else h rr)
    have h1 : ¬Reaches q rl rr := fun hc =>
      hne (reaches_self_of_root (Or.inl hrl) hc).symm
    have h2 : Reaches q rr rr := Reaches.self rr hrr
    rw [if_neg h1, if_pos h2]
    omega
  · have hlt : h kv.2 < h kv.1 := hh kv hkv hne2
    have hlook : alookup q kv.1 = some kv.2 :=
      alookup_eq_some_of_mem q kv.1 kv.2 hnd (by rw [Prod.mk.eta]; exact hkv)
    have hiff : Reaches q kv.1 rr ↔ Reaches q kv.2 rr := by
      constructor
      · intro hc
        cases hc with
        | self _ h' => exact absurd rfl hkne
        | outside _ h' => exact absurd rfl hkne
        | step _ y _ h' hne' hrest =>
          rw [hlook] at h'
          cases h'
          exact hrest
      · intro hc
        exact Reaches.step kv.1 kv.2 rr hlook hne2 hc
    show (if Reaches q kv.2 rr then h kv.2 + (h rl + 1) else h kv.2)
      < (if Reaches q kv.1 rr then h kv.1 + (h rl + 1) else h kv.1)
    by_cases hin : Reaches q kv.1 rr
    · rw [if_pos (hiff.mp hin), if_pos hin]
      omega
    · rw [if_neg (fun hc => hin (hiff.mpr hc)), if_neg hin]
      omega

/-- `UF.union` on a well-formed state: preserves well-formedness, adds the
two endpoints to the key set, and joins exactly their two components. -/
theorem union_spec (p : UFParent) (a b : String) (hwf : UFWF p) :
    UFWF (UF.union p a b) ∧
    (∀ x, x ∈ (UF.union p a b).map Prod.fst ↔ (x ∈ p.map Prod.fst ∨ x = a ∨ x = b)) ∧
    (∀ x y, SameRoot (UF.union p a b) x y ↔
      (SameRoot p x y ∨ (SameRoot p x a ∧ SameRoot p b y) ∨
        (SameRoot p x b ∧ SameRoot p a y))) := by
  obtain ⟨hra, hwf1, hpres1, _, _⟩ := find_spec p a hwf
  obtain ⟨hrb1, hwf2, hpres2, _, _⟩ := find_spec (UF.find p a).2 b hwf1
  have hkeys1 := find_keys_iff p a hwf
  have hkeys2 := find_keys_iff (UF.find p a).2 b hwf1
  have hpres12 : ∀ y s, Reaches (UF.find (UF.find p a).2 b).2 y s ↔ Reaches p y s :=
    fun y s => (hpres2 y s).trans (hpres1 y s)
  have hrb : Reaches p b (UF.find (UF.find p a).2 b).1 := (hpres1 _ _).mp hrb1
  have hra2 : Reaches (UF.find (UF.find p a).2 b).2 a (UF.find p a).1 :=
    (hpres12 _ _).mpr hra
  have hrb2 : Reaches (UF.find (UF.find p a).2 b).2 b (UF.find (UF.find p a).2 b).1 :=
    (hpres12 _ _).mpr hrb
  have hak2 : a ∈ (UF.find (UF.find p a).2 b).2.map Prod.fst :=
    (hkeys2 a).mpr (Or.inl ((hkeys1 a).mpr (Or.inr rfl)))
  have hbk2 : b ∈ (UF.find (UF.find p a).2 b).2.map Prod.fst :=
    (hkeys2 b).mpr (Or.inr rfl)
  have hrlP2 : alookup (UF.find (UF.find p a).2 b).2 (UF.find p a).1
      = some (UF.find p a).1 :=
    reaches_root_lookup_mem hwf2 hra2 hak2
  have hrrP2 : alookup (UF.find (UF.find p a).2 b).2 (UF.find (UF.find p a).2 b).1
      = some (UF.find (UF.find p a).2 b).1 :=
    reaches_root_lookup_mem hwf2 hrb2 hbk2
  have hkeysU : ∀ x, x ∈ (UF.find (UF.find p a).2 b).2.map Prod.fst ↔
      (x ∈ p.map Prod.fst ∨ x = a ∨ x = b) := by
    intro x
    rw [hkeys2 x, hkeys1 x]
    tauto
  have hSR12 : ∀ x y, SameRoot (UF.find (UF.find p a).2 b).2 x y ↔ SameRoot p x y := by
    intro x y
    constructor
    · rintro ⟨r, h1, h2⟩
      exact ⟨r, (hpres12 x r).mp h1, (hpres12 y r).mp h2⟩
    · rintro ⟨r, h1, h2⟩
      exact ⟨r, (hpres12 x r).mpr h1, (hpres12 y r).mpr h2⟩
  by_cases hne : (UF.find p a).1 = (UF.find (UF.find p a).2 b).1
  · rw [union_eq_no_link hne]
    have hab : SameRoot p a b := ⟨(UF.find (UF.find p a).2 b).1, hne ▸ hra, hrb⟩
    refine ⟨hwf2, hkeysU, ?_⟩
    intro x y
    rw [hSR12 x y]
    constructor
    · exact Or.inl
    · rintro (h | ⟨h1, h2⟩ | ⟨h1, h2⟩)
      · exact h
      · exact sameRoot_trans (sameRoot_trans h1 hab) h2
      · exact sameRoot_trans (sameRoot_trans h1 (sameRoot_symm hab)) h2
  · rw [union_eq_link hne]
    have hlink := reaches_link hrlP2 hrrP2 hne
    obtain ⟨hnd2, hcv2, h2, hh2⟩ := hwf2
    have hrrk : (UF.find (UF.find p a).2 b).1 ∈ (UF.find (UF.find p a).2 b).2.map Prod.fst :=
      mem_keys_of_alookup _ _ _ hrrP2
    have hrlk : (UF.find p a).1 ∈ (UF.find (UF.find p a).2 b).2.map Prod.fst :=
      mem_keys_of_alookup _ _ _ hrlP2
    have hkeq : (aset (UF.find (UF.find p a).2 b).2 (UF.find (UF.find p a).2 b).1
        (UF.find p a).1).map Prod.fst = (UF.find (UF.find p a).2 b).2.map Prod.fst :=
      map_fst_aset_of_mem _ _ _ hrrk
    refine ⟨⟨?_, ?_, ?_⟩, ?_, ?_⟩
    · exact nodup_map_fst_aset _ _ _ hnd2
    · intro kv hkv
      rw [hkeq]
      rcases (mem_aset_iff _ _ _ kv hnd2).mp hkv with hkv | ⟨hkv, _⟩
      · subst hkv
        exact hrlk
      · exact hcv2 kv hkv
    · exact heightCond_link hnd2 hh2 hrlP2 hrrP2 hne
    · intro x
      rw [hkeq]
      exact hkeysU x
    · intro x y
      constructor
      · rintro ⟨s, hx, hy⟩
        rcases (hlink x s).mp hx with ⟨hx', hxne⟩ | ⟨hx', hxeq⟩ <;>
          rcases (hlink y s).mp hy with ⟨hy', hyne⟩ | ⟨hy', hyeq⟩
        · exact Or.inl ((hSR12 x y).mp ⟨s, hx', hy'⟩)
        · exact Or.inr (Or.inl ⟨(hSR12 x a).mp ⟨_, hyeq ▸ hx', hra2⟩,
            (hSR12 b y).mp ⟨_, hrb2, hy'⟩⟩)
        · exact Or.inr (Or.inr ⟨(hSR12 x b).mp ⟨_, hx', hrb2⟩,
            (hSR12 a y).mp ⟨_, hra2, hxeq ▸ hy'⟩⟩)
        · exact Or.inl ((hSR12 x y).mp ⟨_, hx', hy'⟩)
      · intro hd
        rcases hd with hxy | ⟨h1, hb2⟩ | ⟨h1, hb2⟩
        · obtain ⟨s, hx, hy⟩ := (hSR12 x y).mpr hxy
          by_cases hs : s = (UF.find (UF.find p a).2 b).1
          · exact ⟨(UF.find p a).1, (hlink x _).mpr (Or.inr ⟨hs ▸ hx, rfl⟩),
              (hlink y _).mpr (Or.inr ⟨hs ▸ hy, rfl⟩)⟩
          · exact ⟨s, (hlink x s).mpr (Or.inl ⟨hx, hs⟩), (hlink y s).mpr (Or.inl ⟨hy, hs⟩)⟩
        · obtain ⟨s1, hx1, ha1⟩ := (hSR12 x a).mpr h1
          have hs1 : s1 = (UF.find p a).1 := reaches_unique ha1 hra2
          obtain ⟨s2, hb2', hy2⟩ := (hSR12 b y).mpr hb2
          have hs2 : s2 = (UF.find (UF.find p a).2 b).1 := reaches_unique hb2' hrb2
          exact ⟨(UF.find p a).1, (hlink x _).mpr (Or.inl ⟨hs1 ▸ hx1, hne⟩),
            (hlink y _).mpr (Or.inr ⟨hs2 ▸ hy2, rfl⟩)⟩
        · obtain ⟨s1, hx1, hb1⟩ := (hSR12 x b).mpr h1
          have hs1 : s1 = (UF.find (UF.find p a).2 b).1 := reaches_unique hb1 hrb2
          obtain ⟨s2, ha2, hy2⟩ := (hSR12 a y).mpr hb2
          have hs2 : s2 = (UF.find p a).1 := reaches_unique ha2 hra2
          exact ⟨(UF.find p a).1, (hlink x _).mpr (Or.inr ⟨hs1 ▸ hx1, rfl⟩),
            (hlink y _).mpr (Or.inl ⟨hs2 ▸ hy2, hne⟩)⟩

/-! ## The union loop computes the equivalence closure of the edges -/

theorem eqvGen_le {α : Type} {R Q : α → α → Prop}
    (h : ∀ a b, R a b → Relation.EqvGen Q a b) :
    ∀ a b, Relation.EqvGen R a b → Relation.EqvGen Q a b := by
  intro a b hd
  induction hd with
  | rel x y hr => exact h x y hr
  | refl x => exact Relation.EqvGen.refl x
  | symm x y _ ih => exact Relation.EqvGen.symm x y ih
  | trans x y z _ _ ih1 ih2 => exact Relation.EqvGen.trans x y z ih1 ih2

theorem reaches_nil {x r : String} (h : Reaches [] x r) : r = x := by
  cases h with
  | self _ h => simp [alookup] at h
  | outside _ _ => rfl
  | step _ _ _ h _ _ => simp [alookup] at h

theorem sameRoot_nil (x y : String) : SameRoot [] x y ↔ x = y := by
  constructor
  · rintro ⟨r, hx, hy⟩
    rw [← reaches_nil hx, ← reaches_nil hy]
  · rintro rfl
    exact ⟨x, Reaches.outside x rfl, Reaches.outside x rfl⟩

theorem ufwf_nil : UFWF [] :=
  ⟨List.nodup_nil, fun kv hkv => absurd hkv (List.not_mem_nil kv),
    ⟨fun _ => 0, fun kv hkv => absurd hkv (List.not_mem_nil kv)⟩⟩

theorem mentioned_cons (c : MatchCandidate) (rest : List MatchCandidate) (x : String) :
    mentioned (c :: rest) x ↔ ((c.left_id = x ∨ c.right_id = x) ∨ mentioned rest x) := by
  constructor
  · rintro ⟨c', hc', he⟩
    rcases List.mem_cons.mp hc' with hc' | hc'
    · subst hc'
      exact Or.inl he
    · exact Or.inr ⟨c', hc', he⟩
  · rintro (he | ⟨c', hc', he⟩)
    · exact ⟨c, List.mem_cons_self c rest, he⟩
    · exact ⟨c', List.mem_cons_of_mem c hc', he⟩

theorem unionFold_spec :
    ∀ (cs : List MatchCandidate) (p : UFParent), UFWF p →
      UFWF (cs.foldl (fun q c => UF.union q c.left_id c.right_id) p) ∧
      (∀ x, x ∈ (cs.foldl (fun q c => UF.union q c.left_id c.right_id) p).map Prod.fst ↔
        (x ∈ p.map Prod.fst ∨ mentioned cs x)) ∧
      (∀ x y, SameRoot (cs.foldl (fun q c => UF.union q c.left_id c.right_id) p) x y ↔
        Relation.EqvGen (fun u v => SameRoot p u v ∨ edgeRel cs u v) x y) := by
  intro cs
  induction cs with
  | nil =>
    intro p hwf
    refine ⟨hwf, ?_, ?_⟩
    · intro x
      simp [mentioned]
    · intro x y
      constructor
      · intro h
        exact Relation.EqvGen.rel x y (Or.inl h)
      · intro h
        induction h with
        | rel u v hr =>
          rcases hr with hr | hr
          · exact hr
          · obtain ⟨c, hc, _⟩ := hr
            exact absurd hc (List.not_mem_nil c)
        | refl u => exact sameRoot_refl hwf u
        | symm u v _ ih => exact sameRoot_symm ih
        | trans u v w _ _ ih1 ih2 => exact sameRoot_trans ih1 ih2
  | cons c rest ih =>
    intro p hwf
    obtain ⟨hwfU, hkeysU, hsrU⟩ := union_spec p c.left_id c.right_id hwf
    obtain ⟨hw, hk, hs⟩ := ih (UF.union p c.left_id c.right_id) hwfU
    rw [List.foldl_cons]
    refine ⟨hw, ?_, ?_⟩
    · intro x
      rw [hk x, hkeysU x, mentioned_cons]
      constructor
      · rintro ((h | h | h) | h)
        · exact Or.inl h
        · exact Or.inr (Or.inl (Or.inl h.symm))
        · exact Or.inr (Or.inl (Or.inr h.symm))
        · exact Or.inr (Or.inr h)
      · rintro (h | (h | h) | h)
        · exact Or.inl (Or.inl h)
        · exact Or.inl (Or.inr (Or.inl h.symm))
        · exact Or.inl (Or.inr (Or.inr h.symm))
        · exact Or.inr h
    · intro x y
      rw [hs x y]
      constructor
      · apply eqvGen_le
        intro u v hr
        rcases hr with hr | hr
        · rcases (hsrU u v).mp hr with h | ⟨h1, h2⟩ | ⟨h1, h2⟩
          · exact Relation.EqvGen.rel u v (Or.inl h)
          · have e1 : Relation.EqvGen
                (fun u v => SameRoot p u v ∨ edgeRel (c :: rest) u v) u c.left_id :=
              Relation.EqvGen.rel _ _ (Or.inl h1)
            have e2 : Relation.EqvGen
                (fun u v => SameRoot p u v ∨ edgeRel (c :: rest) u v) c.left_id c.right_id :=
              Relation.EqvGen.rel _ _ (Or.inr ⟨c, List.mem_cons_self c rest, rfl, rfl⟩)
            have e3 : Relation.EqvGen
                (fun u v => SameRoot p u v ∨ edgeRel (c :: rest) u v) c.right_id v :=
              Relation.EqvGen.rel _ _ (Or.inl h2)
            exact Relation.EqvGen.trans _ _ _ (Relation.EqvGen.trans _ _ _ e1 e2) e3
          · have e1 : Relation.EqvGen
                (fun u v => SameRoot p u v ∨ edgeRel (c :: rest) u v) u c.right_id :=
              Relation.EqvGen.rel _ _ (Or.inl h1)
            have e2 : Relation.EqvGen
                (fun u v => SameRoot p u v ∨ edgeRel (c :: rest) u v) c.left_id c.right_id :=
              Relation.EqvGen.rel _ _ (Or.inr ⟨c, List.mem_cons_self c rest, rfl, rfl⟩)
            have e3 : Relation.EqvGen
                (fun u v => SameRoot p u v ∨ edgeRel (c :: rest) u v) c.left_id v :=
              Relation.EqvGen.rel _ _ (Or.inl h2)
            exact Relation.EqvGen.trans _ _ _
              (Relation.EqvGen.trans _ _ _ e1 (Relation.EqvGen.symm _ _ e2)) e3
        · obtain ⟨c', hc', he⟩ := hr
          exact Relation.EqvGen.rel u v (Or.inr ⟨c', List.mem_cons_of_mem c hc', he⟩)
      · apply eqvGen_le
        intro u v hr
        rcases hr with hr | hr
        · exact Relation.EqvGen.rel u v (Or.inl ((hsrU u v).mpr (Or.inl hr)))
        · obtain ⟨c', hc', he⟩ := hr
          rcases List.mem_cons.mp hc' with hc' | hc'
          · subst hc'
            obtain ⟨h1, h2⟩ := he
            subst h1
            subst h2
            exact Relation.EqvGen.rel _ _ (Or.inl ((hsrU _ _).mpr
              (Or.inr (Or.inl ⟨sameRoot_refl hwf _, sameRoot_refl hwf _⟩))))
          · exact Relation.EqvGen.rel u v (Or.inr ⟨c', hc', he⟩)

/-- The union loop of `cluster` builds a well-formed union-find whose keys
are the mentioned ids and whose components realise exactly the equivalence
closure of the candidate edges. -/
theorem unionAll_spec (cs : List MatchCandidate) :
    UFWF (unionAll cs) ∧
    (∀ x, x ∈ (unionAll cs).map Prod.fst ↔ mentioned cs x) ∧
    (∀ x y, SameRoot (unionAll cs) x y ↔ Relation.EqvGen (edgeRel cs) x y) := by
  obtain ⟨hw, hk, hs⟩ := unionFold_spec cs [] ufwf_nil
  refine ⟨hw, ?_, ?_⟩
  · intro x
    rw [show unionAll cs = cs.foldl (fun q c => UF.union q c.left_id c.right_id) [] from rfl,
      hk x]
    simp
  · intro x y
    rw [show unionAll cs = cs.foldl (fun q c => UF.union q c.left_id c.right_id) [] from rfl,
      hs x y]
    constructor
    · apply eqvGen_le
      intro u v hr
      rcases hr with hr | hr
      · rw [(sameRoot_nil u v).mp hr]
        exact Relation.EqvGen.refl v
      · exact Relation.EqvGen.rel u v hr
    · apply eqvGen_le
      intro u v hr
      exact Relation.EqvGen.rel u v (Or.inr hr)

/-! ## Canonical roots -/

theorem rootIn_reaches {p : UFParent} (hwf : UFWF p) (x : String) :
    Reaches p x (rootIn p x) :=
  (find_spec p x hwf).1

theorem reaches_rootIn_unique {p : UFParent} (hwf : UFWF p) {x r : String}
    (h : Reaches p x r) : rootIn p x = r :=
  reaches_unique (rootIn_reaches hwf x) h

theorem rootIn_eq_iff {p : UFParent} (hwf : UFWF p) (x y : String) :
    rootIn p x = rootIn p y ↔ SameRoot p x y := by
  constructor
  · intro h
    exact ⟨rootIn p y, h ▸ rootIn_reaches hwf x, rootIn_reaches hwf y⟩
  · rintro ⟨r, hx, hy⟩
    exact (reaches_rootIn_unique hwf hx).trans (reaches_rootIn_unique hwf hy).symm

/-! ## Keys of `defaultdict` append -/

theorem map_fst_dappend_of_mem {α β : Type} [DecidableEq α] (m : List (α × List β)) (k : α)
    (x : β) (h : k ∈ m.map Prod.fst) : (dappend m k x).map Prod.fst = m.map Prod.fst := by
  induction m with
  | nil => simp at h
  | cons e rest ih =>
    obtain ⟨k0, l0⟩ := e
    by_cases hk : k0 = k
    · simp [dappend, hk]
    · simp only [List.map_cons, List.mem_cons] at h
      rcases h with h | h
      · exact absurd h.symm hk
      · simp [dappend, hk, ih h]

theorem map_fst_dappend_of_not_mem {α β : Type} [DecidableEq α] (m : List (α × List β))
    (k : α) (x : β) (h : k ∉ m.map Prod.fst) :
    (dappend m k x).map Prod.fst = m.map Prod.fst ++ [k] := by
  induction m with
  | nil => simp [dappend]
  | cons e rest ih =>
    obtain ⟨k0, l0⟩ := e
    simp only [List.map_cons, List.mem_cons, not_or] at h
    have hk : k0 ≠ k := fun e => h.1 e.symm
    simp [dappend, hk, ih h.2]

theorem nodup_map_fst_dappend {α β : Type} [DecidableEq α] (m : List (α × List β)) (k : α)
    (x : β) (h : (m.map Prod.fst).Nodup) : ((dappend m k x).map Prod.fst).Nodup := by
  by_cases hk : k ∈ m.map Prod.fst
  · rw [map_fst_dappend_of_mem m k x hk]
    exact h
  · rw [map_fst_dappend_of_not_mem m k x hk]
    simp [List.nodup_append, h, hk]

theorem mem_map_fst_dappend_iff {α β : Type} [DecidableEq α] (m : List (α × List β)) (k : α)
    (x : β) (z : α) :
    z ∈ (dappend m k x).map Prod.fst ↔ (z ∈ m.map Prod.fst ∨ z = k) := by
  by_cases hk : k ∈ m.map Prod.fst
  · rw [map_fst_dappend_of_mem m k x hk]
    constructor
    · exact Or.inl
    · rintro (h | h)
      · exact h
      · rw [h]
        exact hk
  · rw [map_fst_dappend_of_not_mem m k x hk]
    simp

theorem dappend_entries_ne_nil {α β : Type} [DecidableEq α] (m : List (α × List β)) (k : α)
    (x : β) (h : ∀ e ∈ m, e.2 ≠ []) : ∀ e ∈ dappend m k x, e.2 ≠ [] := by
  induction m with
  | nil =>
    intro e he
    simp [dappend] at he
    subst he
    simp
  | cons e0 rest ih =>
    obtain ⟨k0, l0⟩ := e0
    intro e he
    by_cases hk : k0 = k
    · simp only [dappend, if_pos hk] at he
      rcases List.mem_cons.mp he with he | he
      · subst he
        simp
      · exact h e (List.mem_cons_of_mem _ he)
    · simp only [dappend, if_neg hk] at he
      rcases List.mem_cons.mp he with he | he
      · subst he
        exact h (k0, l0) (List.mem_cons_self _ _)
      · exact ih (fun e' he' => h e' (List.mem_cons_of_mem _ he')) e he

/-! ## The scoring loop builds the left-root score map -/

theorem scoreFold_spec (p0 : UFParent) (hwf0 : UFWF p0) :
    ∀ (cs : List MatchCandidate) (st : UFParent × List (String × List ℚ)),
      UFWF st.1 → (∀ y s, Reaches st.1 y s ↔ Reaches p0 y s) →
      st.1.map Prod.fst = p0.map Prod.fst →
      (∀ c ∈ cs, c.left_id ∈ p0.map Prod.fst) →
      UFWF (cs.foldl (fun st c =>
          ((UF.find st.1 c.left_id).2, dappend st.2 (UF.find st.1 c.left_id).1 c.score))
        st).1 ∧
      (∀ y s, Reaches (cs.foldl (fun st c =>
          ((UF.find st.1 c.left_id).2, dappend st.2 (UF.find st.1 c.left_id).1 c.score))
        st).1 y s ↔ Reaches p0 y s) ∧
      (cs.foldl (fun st c =>
          ((UF.find st.1 c.left_id).2, dappend st.2 (UF.find st.1 c.left_id).1 c.score))
        st).1.map Prod.fst = p0.map Prod.fst ∧
      (∀ rt, glist (cs.foldl (fun st c =>
          ((UF.find st.1 c.left_id).2, dappend st.2 (UF.find st.1 c.left_id).1 c.score))
        st).2 rt
        = glist st.2 rt ++ ((cs.filter fun c => rootIn p0 c.left_id = rt).map
            fun c => c.score)) := by
  intro cs
  induction cs with
  | nil =>
    intro st hwf hpres hkeys _
    exact ⟨hwf, hpres, hkeys, fun rt => by simp⟩
  | cons c rest ih =>
    intro st hwf hpres hkeys hmem
    obtain ⟨hrfind, hwf', hpres', hkin, _⟩ := find_spec st.1 c.left_id hwf
    have hlk : c.left_id ∈ st.1.map Prod.fst := by
      rw [hkeys]
      exact hmem c (List.mem_cons_self c rest)
    have hkeys' : (UF.find st.1 c.left_id).2.map Prod.fst = p0.map Prod.fst :=
      (hkin hlk).trans hkeys
    have hpres'' : ∀ y s, Reaches (UF.find st.1 c.left_id).2 y s ↔ Reaches p0 y s :=
      fun y s => (hpres' y s).trans (hpres y s)
    have hroot : rootIn p0 c.left_id = (UF.find st.1 c.left_id).1 :=
      reaches_rootIn_unique hwf0 ((hpres _ _).mp hrfind)
    rw [List.foldl_cons]
    obtain ⟨ih1, ih2, ih3, ih4⟩ := ih
      ((UF.find st.1 c.left_id).2, dappend st.2 (UF.find st.1 c.left_id).1 c.score)
      hwf' hpres'' hkeys' (fun c' hc' => hmem c' (List.mem_cons_of_mem c hc'))
    refine ⟨ih1, ih2, ih3, ?_⟩
    intro rt
    rw [ih4 rt]
    show glist (dappend st.2 (UF.find st.1 c.left_id).1 c.score) rt ++ _ = _
    rw [glist_dappend]
    rw [List.filter_cons]
    by_cases hrt : rootIn p0 c.left_id = rt
    · rw [if_pos (hrt ▸ hroot), if_pos (by simp [hrt])]
      simp [List.append_assoc]
    · rw [if_neg (fun e : rt = (UF.find st.1 c.left_id).1 => hrt (hroot.trans e.symm)),
        if_neg (by simp [hrt])]

/-- The scoring loop of `cluster`: the union-find state keeps its keys and
reachability, and the score map holds, per root, the scores of exactly the
candidates whose left endpoint has that root, in order. -/
theorem scoreLoop_spec (cs : List MatchCandidate) (p : UFParent) (hwf : UFWF p)
    (hmem : ∀ c ∈ cs, c.left_id ∈ p.map Prod.fst) :
    UFWF (scoreLoop cs p).1 ∧
    (∀ y s, Reaches (scoreLoop cs p).1 y s ↔ Reaches p y s) ∧
    (scoreLoop cs p).1.map Prod.fst = p.map Prod.fst ∧
    (∀ rt, glist (scoreLoop cs p).2 rt
      = (cs.filter fun c => rootIn p c.left_id = rt).map fun c => c.score) := by
  obtain ⟨h1, h2, h3, h4⟩ := scoreFold_spec p hwf cs (p, []) hwf (fun y s => Iff.rfl) rfl hmem
  refine ⟨h1, h2, h3, fun rt => ?_⟩
  have := h4 rt
  simpa [glist, alookup] using this

/-! ## The groups loop partitions the keys by root -/

theorem groupsAuxFold_spec (p0 : UFParent) (hwf0 : UFWF p0) :
    ∀ (ks : List String) (p : UFParent) (acc : List (String × List String)),
      UFWF p → (∀ y s, Reaches p y s ↔ Reaches p0 y s) →
      p.map Prod.fst = p0.map Prod.fst →
      (∀ k ∈ ks, k ∈ p0.map Prod.fst) →
      (acc.map Prod.fst).Nodup →
      (∀ rt, glist (UF.groupsAux ks p acc).2 rt
        = glist acc rt ++ (ks.filter fun k => rootIn p0 k = rt)) ∧
      ((UF.groupsAux ks p acc).2.map Prod.fst).Nodup ∧
      (∀ rt, rt ∈ (UF.groupsAux ks p acc).2.map Prod.fst ↔
        (rt ∈ acc.map Prod.fst ∨ ∃ k ∈ ks, rootIn p0 k = rt)) := by
  intro ks
  induction ks with
  | nil =>
    intro p acc _ _ _ _ haccnd
    refine ⟨fun rt => by simp [UF.groupsAux], haccnd, fun rt => by simp [UF.groupsAux]⟩
  | cons k ks ih =>
    intro p acc hwf hpres hkeys hks haccnd
    obtain ⟨hrfind, hwf', hpres', hkin, _⟩ := find_spec p k hwf
    have hkmem : k ∈ p.map Prod.fst := by
      rw [hkeys]
      exact hks k (List.mem_cons_self k ks)
    have hkeys' : (UF.find p k).2.map Prod.fst = p0.map Prod.fst := (hkin hkmem).trans hkeys
    have hpres'' : ∀ y s, Reaches (UF.find p k).2 y s ↔ Reaches p0 y s :=
      fun y s => (hpres' y s).trans (hpres y s)
    have hroot : rootIn p0 k = (UF.find p k).1 :=
      reaches_rootIn_unique hwf0 ((hpres _ _).mp hrfind)
    have hshow : UF.groupsAux (k :: ks) p acc
        = UF.groupsAux ks (UF.find p k).2 (dappend acc (UF.find p k).1 k) := rfl
    rw [hshow]
    obtain ⟨ih1, ih2, ih3⟩ := ih (UF.find p k).2 (dappend acc (UF.find p k).1 k)
      hwf' hpres'' hkeys' (fun k' hk' => hks k' (List.mem_cons_of_mem k hk'))
      (nodup_map_fst_dappend acc _ k haccnd)
    refine ⟨?_, ih2, ?_⟩
    · intro rt
      rw [ih1 rt, glist_dappend, List.filter_cons]
      by_cases hrt : rootIn p0 k = rt
      · rw [if_pos (hrt ▸ hroot), if_pos (by simp [hrt])]
        simp [List.append_assoc]
      · rw [if_neg (fun e : rt = (UF.find p k).1 => hrt (hroot.trans e.symm)),
          if_neg (by simp [hrt])]
    · intro rt
      rw [ih3 rt, mem_map_fst_dappend_iff]
      constructor
      · rintro ((h | h) | h)
        · exact Or.inl h
        · exact Or.inr ⟨k, List.mem_cons_self k ks, hroot.trans h.symm⟩
        · obtain ⟨k', hk', he⟩ := h
          exact Or.inr ⟨k', List.mem_cons_of_mem k hk', he⟩
      · rintro (h | ⟨k', hk', he⟩)
        · exact Or.inl (Or.inl h)
        · rcases List.mem_cons.mp hk' with hk' | hk'
          · subst hk'
            exact Or.inl (Or.inr (he ▸ hroot))
          · exact Or.inr ⟨k', hk', he⟩

/-- `UF.groups` on a state equivalent to `p0`: each entry holds exactly the
keys rooted at its root, group roots are distinct, and a root is present
exactly when some key maps to it. -/
theorem groups_spec (p0 p : UFParent) (hwf0 : UFWF p0) (hwf : UFWF p)
    (hpres : ∀ y s, Reaches p y s ↔ Reaches p0 y s)
    (hkeys : p.map Prod.fst = p0.map Prod.fst) :
    (∀ rt, glist (UF.groups p).2 rt
      = ((p.map Prod.fst).filter fun k => rootIn p0 k = rt)) ∧
    ((UF.groups p).2.map Prod.fst).Nodup ∧
    (∀ rt, rt ∈ (UF.groups p).2.map Prod.fst ↔ ∃ k ∈ p.map Prod.fst, rootIn p0 k = rt) ∧
    (∀ rm ∈ (UF.groups p).2, rm.2 = (p.map Prod.fst).filter fun k => rootIn p0 k = rm.1) := by
  obtain ⟨h1, h2, h3⟩ := groupsAuxFold_spec p0 hwf0 (p.map Prod.fst) p [] hwf hpres hkeys
    (fun k hk => hkeys ▸ hk) List.nodup_nil
  have hglist : ∀ rt, glist (UF.groups p).2 rt
      = ((p.map Prod.fst).filter fun k => rootIn p0 k = rt) := by
    intro rt
    have := h1 rt
    simpa [glist, alookup] using this
  refine ⟨hglist, h2, fun rt => (h3 rt).trans (by simp), ?_⟩
  intro rm hrm
  have hlook : alookup (UF.groups p).2 rm.1 = some rm.2 :=
    alookup_eq_some_of_mem _ rm.1 rm.2 h2 (by rw [Prod.mk.eta]; exact hrm)
  have : glist (UF.groups p).2 rm.1 = rm.2 := by
    rw [glist, hlook]
    rfl
  rw [← this, hglist]

/-! ## Claim theorem: cluster confidence (C2) -/

/-- Claim C2: every emitted cluster is labelled by a union-find root `rt`,
and its confidence is the arithmetic mean (sum over length) of the scores of
exactly those candidates whose left endpoint resolves to `rt` in the
union-find built by the union loop; that score list is non-empty, and
candidates whose right endpoint alone resolves to `rt` contribute nothing. -/
theorem cluster_confidence (cs : List MatchCandidate) (cl : Cluster)
    (hcl : cl ∈ cluster cs) :
    ∃ rt, cl.cluster_id = "cluster_" ++ rt ∧
      ((cs.filter fun c => rootIn (unionAll cs) c.left_id = rt).map fun c => c.score) ≠ [] ∧
      cl.confidence
        = (((cs.filter fun c => rootIn (unionAll cs) c.left_id = rt).map
              fun c => c.score).sum)
          / ((((cs.filter fun c => rootIn (unionAll cs) c.left_id = rt).map
              fun c => c.score).length : ℚ)) := by
  have hcs : cs ≠ [] := by
    intro h
    rw [h] at hcl
    simp [cluster] at hcl
  rw [cluster, if_neg hcs] at hcl
  rw [mem_sortClusters] at hcl
  obtain ⟨rm, hrm, hsome⟩ := List.mem_filterMap.mp hcl
  have hU := unionAll_spec cs
  have hmem : ∀ c ∈ cs, c.left_id ∈ (unionAll cs).map Prod.fst :=
    fun c hc => (hU.2.1 c.left_id).mpr ⟨c, hc, Or.inl rfl⟩
  have hS := scoreLoop_spec cs (unionAll cs) hU.1 hmem
  have hG := groups_spec (unionAll cs) (scoreLoop cs (unionAll cs)).1 hU.1 hS.1 hS.2.1
    hS.2.2.1
  unfold groupToCluster at hsome
  by_cases hlen : rm.2.length < 2
  · rw [if_pos hlen] at hsome
    cases hsome
  rw [if_neg hlen] at hsome
  cases hsome
  refine ⟨rm.1, rfl, ?_, ?_⟩
  all_goals {
    have hmembers : rm.2 = ((scoreLoop cs (unionAll cs)).1.map Prod.fst).filter
        (fun k => rootIn (unionAll cs) k = rm.1) := hG.2.2.2 rm hrm
    have hex : ∃ k, k ∈ (scoreLoop cs (unionAll cs)).1.map Prod.fst ∧
        rootIn (unionAll cs) k = rm.1 := by
      have hlen2 : 0 < rm.2.length := by omega
      obtain ⟨k, hk⟩ := List.exists_mem_of_length_pos hlen2
      rw [hmembers] at hk
      have hk2 := List.mem_filter.mp hk
      exact ⟨k, hk2.1, by simpa using hk2.2⟩
    obtain ⟨k, hkk, hkrt⟩ := hex
    have hkm : mentioned cs k := (hU.2.1 k).mp (by rw [← hS.2.2.1]; exact hkk)
    obtain ⟨c, hc, hcl_or⟩ := hkm
    have hcleft : rootIn (unionAll cs) c.left_id = rm.1 := by
      rcases hcl_or with he | he
      · rw [he]
        exact hkrt
      · have hsr : SameRoot (unionAll cs) c.left_id c.right_id :=
          (hU.2.2 _ _).mpr (Relation.EqvGen.rel _ _ ⟨c, hc, rfl, rfl⟩)
        have heq := (rootIn_eq_iff hU.1 c.left_id c.right_id).mpr hsr
        rw [heq, he]
        exact hkrt
    have hfilterne : (cs.filter fun c => rootIn (unionAll cs) c.left_id = rm.1) ≠ [] := by
      intro hnil
      have hcf : c ∈ cs.filter fun c => rootIn (unionAll cs) c.left_id = rm.1 :=
        List.mem_filter.mpr ⟨hc, by simpa using hcleft⟩
      rw [hnil] at hcf
      exact absurd hcf (List.not_mem_nil c)
    have hglist := hS.2.2.2 rm.1
    have hscores : scoresFor (scoreLoop cs (unionAll cs)).2 rm.1
        = (cs.filter fun c => rootIn (unionAll cs) c.left_id = rm.1).map
            fun c => c.score := by
      rw [scoresFor]
      cases halook : alookup (scoreLoop cs (unionAll cs)).2 rm.1 with
      | none =>
        exfalso
        have hnil : glist (scoreLoop cs (unionAll cs)).2 rm.1 = [] := by
          rw [glist, halook]
          rfl
        rw [hglist] at hnil
        exact hfilterne (List.map_eq_nil_iff.mp hnil)
      | some l =>
        have hgl : glist (scoreLoop cs (unionAll cs)).2 rm.1 = l := by
          rw [glist, halook]
          rfl
        exact hgl.symm.trans hglist
    first
      | exact fun hmapnil => hfilterne (List.map_eq_nil_iff.mp hmapnil)
      | (show (scoresFor (scoreLoop cs (unionAll cs)).2 rm.1).sum
            / ((scoresFor (scoreLoop cs (unionAll cs)).2 rm.1).length : ℚ) = _
         rw [hscores])
  }

unseal List.mergeSort List.merge in
/-- Witness for claim C2 at a concrete single-candidate list. -/
theorem cluster_confidence_witness :
    (wCluster ∈ cluster [wCand]) ∧
      (∃ rt, "cluster_b" = "cluster_" ++ rt ∧
        (([wCand].filter fun c => rootIn (unionAll [wCand]) c.left_id = rt).map
          fun c => c.score) ≠ [] ∧
        (1 : ℚ)
          = ((([wCand].filter fun c => rootIn (unionAll [wCand]) c.left_id = rt).map
              fun c => c.score).sum)
            / (((([wCand].filter fun c => rootIn (unionAll [wCand]) c.left_id = rt).map
              fun c => c.score).length : ℚ))) := by
  have hmem : wCluster ∈ cluster [wCand] := by
    norm_num +decide [wCand, wCluster, cluster, clustersOf, unionAll, scoreLoop, UF.union,
      UF.find, findAux, alookup, aset, dappend, UF.groups, UF.groupsAux, groupToCluster,
      scoresFor, sortStr, sortClusters, List.mergeSort, Cluster.mk.injEq]
  exact ⟨hmem, cluster_confidence _ _ hmem⟩

/-! ## Claim theorem: permutation invariance of the partition (C6) -/

theorem sortStr_sorted (l : List String) : List.Sorted (fun a b => a ≤ b) (sortStr l) :=
  List.sorted_mergeSort' l

theorem sortStr_eq_of_sorted {l L : List String} (hperm : l.Perm L)
    (hL : List.Sorted (fun a b => a ≤ b) L) : sortStr l = L :=
  List.eq_of_perm_of_sorted ((List.mergeSort_perm l _).trans hperm) (sortStr_sorted l) hL

/-- The member lists of the emitted clusters are exactly the sorted
duplicate-free listings of the size-`≥ 2` connected components of the
candidate edges over the mentioned ids. -/
theorem mem_cluster_family (cs : List MatchCandidate) (L : List String) :
    L ∈ (cluster cs).map (fun c => c.record_ids) ↔
      (List.Sorted (fun a b => a ≤ b) L ∧ L.Nodup ∧ 2 ≤ L.length ∧
        ∃ x, mentioned cs x ∧
          ∀ y, y ∈ L ↔ (mentioned cs y ∧ Relation.EqvGen (edgeRel cs) x y)) := by
  by_cases hcs : cs = []
  · subst hcs
    rw [show cluster [] = [] from rfl]
    simp only [List.map_nil, List.not_mem_nil, false_iff]
    rintro ⟨_, _, _, x, ⟨c, hc, _⟩, _⟩
    exact absurd hc (List.not_mem_nil c)
  · have hU := unionAll_spec cs
    have hmem : ∀ c ∈ cs, c.left_id ∈ (unionAll cs).map Prod.fst :=
      fun c hc => (hU.2.1 c.left_id).mpr ⟨c, hc, Or.inl rfl⟩
    have hS := scoreLoop_spec cs (unionAll cs) hU.1 hmem
    have hG := groups_spec (unionAll cs) (scoreLoop cs (unionAll cs)).1 hU.1 hS.1 hS.2.1
      hS.2.2.1
    have hksnd : ((scoreLoop cs (unionAll cs)).1.map Prod.fst).Nodup := by
      rw [hS.2.2.1]
      exact hU.1.1
    have hkmen : ∀ k, k ∈ (scoreLoop cs (unionAll cs)).1.map Prod.fst ↔ mentioned cs k := by
      intro k
      rw [hS.2.2.1]
      exact hU.2.1 k
    rw [cluster, if_neg hcs]
    constructor
    · intro hL
      obtain ⟨cl, hclmem, hrec⟩ := List.mem_map.mp hL
      rw [mem_sortClusters] at hclmem
      obtain ⟨rm, hrm, hsome⟩ := List.mem_filterMap.mp hclmem
      unfold groupToCluster at hsome
      by_cases hlen : rm.2.length < 2
      · rw [if_pos hlen] at hsome
        cases hsome
      rw [if_neg hlen] at hsome
      cases hsome
      have hrec2 : sortStr rm.2 = L := hrec
      subst hrec2
      have hmembers := hG.2.2.2 rm hrm
      have hlenpos : 0 < rm.2.length := by omega
      obtain ⟨x, hx⟩ := List.exists_mem_of_length_pos hlenpos
      have hx2 := List.mem_filter.mp (hmembers ▸ hx)
      have hxrt : rootIn (unionAll cs) x = rm.1 := by simpa using hx2.2
      refine ⟨sortStr_sorted rm.2, ?_, ?_, x, (hkmen x).mp hx2.1, ?_⟩
      · have hnd : rm.2.Nodup := hmembers ▸ (hksnd.filter _)
        exact ((List.mergeSort_perm rm.2 _).nodup_iff).mpr hnd
      · rw [length_sortStr]
        omega
      · intro y
        rw [mem_sortStr]
        constructor
        · intro hy
          have hy2 := List.mem_filter.mp (hmembers ▸ hy)
          have hyrt : rootIn (unionAll cs) y = rm.1 := by simpa using hy2.2
          exact ⟨(hkmen y).mp hy2.1,
            (hU.2.2 x y).mp ((rootIn_eq_iff hU.1 x y).mp (hxrt.trans hyrt.symm))⟩
        · rintro ⟨hmy, heqv⟩
          have hsr : SameRoot (unionAll cs) x y := (hU.2.2 x y).mpr heqv
          have hyrt : rootIn (unionAll cs) y = rm.1 :=
            ((rootIn_eq_iff hU.1 x y).mpr hsr).symm.trans hxrt
          rw [hmembers]
          exact List.mem_filter.mpr ⟨(hkmen y).mpr hmy, by simpa using hyrt⟩
    · rintro ⟨hsort, hnodup, hlen, x, hmx, hiff⟩
      have hxk : x ∈ (scoreLoop cs (unionAll cs)).1.map Prod.fst := (hkmen x).mpr hmx
      have hrtmem : rootIn (unionAll cs) x
          ∈ (UF.groups (scoreLoop cs (unionAll cs)).1).2.map Prod.fst :=
        (hG.2.2.1 _).mpr ⟨x, hxk, rfl⟩
      obtain ⟨rm, hrm, hfst⟩ := List.mem_map.mp hrtmem
      have hmembers := hG.2.2.2 rm hrm
      have hset : ∀ y, y ∈ rm.2 ↔ y ∈ L := by
        intro y
        rw [hmembers, List.mem_filter, hiff y]
        constructor
        · rintro ⟨hyk, hyrt⟩
          have hyrt2 : rootIn (unionAll cs) y = rm.1 := by simpa using hyrt
          exact ⟨(hkmen y).mp hyk, (hU.2.2 x y).mp
            (sameRoot_symm ((rootIn_eq_iff hU.1 y x).mp (hyrt2.trans hfst)))⟩
        · rintro ⟨hmy, heqv⟩
          have hsr := (hU.2.2 x y).mpr heqv
          have hyrt : rootIn (unionAll cs) y = rm.1 :=
            ((rootIn_eq_iff hU.1 x y).mpr hsr).symm.trans hfst.symm
          exact ⟨(hkmen y).mpr hmy, by simpa using hyrt⟩
      have hrmnodup : rm.2.Nodup := hmembers ▸ (hksnd.filter _)
      have hperm : rm.2.Perm L := List.perm_of_nodup_nodup_toFinset_eq hrmnodup hnodup
        (Finset.ext fun y => by
          rw [List.mem_toFinset, List.mem_toFinset, hset y])
      have hlen2 : ¬rm.2.length < 2 := by
        rw [hperm.length_eq]
        omega
      have hLs : sortStr rm.2 = L := sortStr_eq_of_sorted hperm hsort
      refine List.mem_map.mpr ⟨⟨"cluster_" ++ rm.1, sortStr rm.2,
        (scoresFor (scoreLoop cs (unionAll cs)).2 rm.1).sum
          / ((scoresFor (scoreLoop cs (unionAll cs)).2 rm.1).length : ℚ)⟩, ?_, hLs⟩
      rw [mem_sortClusters]
      refine List.mem_filterMap.mpr ⟨rm, hrm, ?_⟩
      unfold groupToCluster
      rw [if_neg hlen2]

/-- Claim C6: clustering a permutation of a candidate list yields the same
partition of record ids: the families of member-id lists coincide. -/
theorem cluster_perm_invariant (cs cs' : List MatchCandidate) (hperm : cs.Perm cs') :
    ((cluster cs).map fun c => c.record_ids).toFinset
      = ((cluster cs').map fun c => c.record_ids).toFinset := by
  have hment : ∀ x, mentioned cs x ↔ mentioned cs' x := by
    intro x
    constructor
    · rintro ⟨c, hc, h⟩
      exact ⟨c, hperm.mem_iff.mp hc, h⟩
    · rintro ⟨c, hc, h⟩
      exact ⟨c, hperm.mem_iff.mpr hc, h⟩
  have hedge : ∀ u v, edgeRel cs u v ↔ edgeRel cs' u v := by
    intro u v
    constructor
    · rintro ⟨c, hc, h⟩
      exact ⟨c, hperm.mem_iff.mp hc, h⟩
    · rintro ⟨c, hc, h⟩
      exact ⟨c, hperm.mem_iff.mpr hc, h⟩
  have heqv : ∀ x y, Relation.EqvGen (edgeRel cs) x y ↔ Relation.EqvGen (edgeRel cs') x y := by
    intro x y
    constructor
    · exact eqvGen_le (fun a b h => Relation.EqvGen.rel a b ((hedge a b).mp h)) x y
    · exact eqvGen_le (fun a b h => Relation.EqvGen.rel a b ((hedge a b).mpr h)) x y
  ext L
  simp only [List.mem_toFinset]
  rw [mem_cluster_family, mem_cluster_family]
  constructor
  · rintro ⟨hs, hn, hl, x, hmx, hiff⟩
    exact ⟨hs, hn, hl, x, (hment x).mp hmx,
      fun y => (hiff y).trans (and_congr (hment y) (heqv x y))⟩
  · rintro ⟨hs, hn, hl, x, hmx, hiff⟩
    exact ⟨hs, hn, hl, x, (hment x).mpr hmx,
      fun y => (hiff y).trans (and_congr (hment y) (heqv x y)).symm⟩

/-- Witness for claim C6 at a concrete two-candidate list and its swap. -/
theorem cluster_perm_invariant_witness :
    ([wCand, wCand2].Perm [wCand2, wCand]) ∧
      ((cluster [wCand, wCand2]).map fun c => c.record_ids).toFinset
        = ((cluster [wCand2, wCand]).map fun c => c.record_ids).toFinset :=
  ⟨List.Perm.swap wCand2 wCand [],
    cluster_perm_invariant [wCand, wCand2] [wCand2, wCand]
      (List.Perm.swap wCand2 wCand [])⟩

end CustomerDedupe
